import Mathlib

/-!
Verification development for the comment-body formatter and its driver
(`update-comment-link.ts`) of this repository.

The implementation of `updateCommentBody` (`src/github/operations/comment-logic.ts`)
is not part of the available sources; only its unit tests
(`test/comment-logic.test.ts`) and its caller (`src/entrypoints/update-comment-link.ts`)
are.  The formatter is therefore modelled here from the specification, faithful to
its wording (spec §3, §4.1), and checked against the observable behaviour recorded
in the unit tests.  The driver fragments relevant to the claims (comment fetching,
`actionFailed` computation) are embedded directly from
`src/entrypoints/update-comment-link.ts`.

All text is represented as `List Char`; `String` appears only at the outer
interface (`CommentUpdateInput`, `updateCommentBody`).
-/

/-! ## Basic text utilities -/

/-- `containsSub pat l` : does `pat` occur as a contiguous substring of `l`? -/
def containsSub (pat : List Char) : List Char → Bool
  | [] => pat.isEmpty
  | c :: cs => pat.isPrefixOf (c :: cs) || containsSub pat cs

/-- `hasPair c d l` : do the two characters `c`, `d` occur adjacently in `l`? -/
def hasPair (c d : Char) : List Char → Bool
  | [] => false
  | x :: xs => (x = c && xs.head? = some d) || hasPair c d xs

/-- Split a character list at newline characters.  Always returns at least one
(possibly empty) line; no returned line contains a newline. -/
def splitLines : List Char → List (List Char)
  | [] => [[]]
  | c :: cs =>
    if c = '\n' then [] :: splitLines cs
    else
      match splitLines cs with
      | [] => [[c]]
      | h :: t => (c :: h) :: t

/-- Join lines with single newline characters (inverse of `splitLines` on
newline-free lines). -/
def joinLines : List (List Char) → List Char
  | [] => []
  | [l] => l
  | l :: ls => l ++ '\n' :: joinLines ls

/-- Split a character list at a separator character. -/
def splitOnChar (sep : Char) : List Char → List (List Char)
  | [] => [[]]
  | c :: cs =>
    if c = sep then [] :: splitOnChar sep cs
    else
      match splitOnChar sep cs with
      | [] => [[c]]
      | h :: t => (c :: h) :: t

/-- The remainder of `l` after the first occurrence of `pat`, if `pat` occurs. -/
def afterSub (pat : List Char) : List Char → Option (List Char)
  | [] => if pat.isEmpty then some [] else none
  | c :: cs =>
    if pat.isPrefixOf (c :: cs) then some ((c :: cs).drop pat.length)
    else afterSub pat cs

/-- Decimal digit characters of a natural number (fuel-driven so that it is
structurally recursive and kernel-evaluable). -/
def natCharsAux : Nat → Nat → List Char
  | 0, _ => []
  | fuel + 1, n =>
    if n < 10 then [Nat.digitChar n]
    else natCharsAux fuel (n / 10) ++ [Nat.digitChar (n % 10)]

/-- Decimal rendering of a natural number as characters. -/
def natChars (n : Nat) : List Char := natCharsAux (n + 1) n

/-! ## The formatter model -/

/-- Modelled from the spec: "word characters, hyphen/underscore allowed"
(§4.1 step 1) — the characters admitted in a mention token. -/
def isWordChar (c : Char) : Bool := c.isAlphanum || c = '_' || c = '-'

/-- Longest word-character run at the front of a character list. -/
def takeWord : List Char → List Char
  | [] => []
  | c :: cs => if isWordChar c then c :: takeWord cs else []

/-- Modelled from the spec: "first `@`-prefixed token (word characters,
hyphen/underscore allowed)" (§4.1 step 1).  Scans for the first `'@'` that is
followed by a nonempty word-character run and returns that run. -/
def findMention : List Char → Option (List Char)
  | [] => none
  | c :: cs =>
    if c = '@' then
      match takeWord cs with
      | [] => findMention cs
      | h :: t => some (h :: t)
    else findMention cs

/-- The working-placeholder marker text ("Claude Code is working…" — matched
without the trailing ellipsis, which varies between "…" and "..." in the
tests). -/
def workingMarker : List Char := "Claude Code is working".toList

/-- Legacy/current job-link markdown marker (covers both "[View job run](…)"
and "—— [View job](…)" links). -/
def jobMarker : List Char := "[View job".toList

/-- The legacy job-link marker ("[View job run](…)" style links). -/
def jobRunMarker : List Char := "[View job run](".toList

/-- The bullet branch-line marker emitted by the formatter itself. -/
def bulletMarker : List Char := "• [`".toList

/-- The legacy branch-link marker. -/
def viewBranchMarker : List Char := "[View branch](".toList

/-- Modelled from the spec: the portion of the body "after any
working-placeholder text" (§4.1 step 1); the whole body when no placeholder
occurs. -/
def afterWorkingMarker (body : List Char) : List Char :=
  match afterSub workingMarker body with
  | some r => r
  | none => body

/-- Modelled from the spec (§3): execution metrics record
`{cost_usd?, duration_ms?, duration_api_ms?}`; only `duration_ms` affects the
output (the numeric type of the unused fields is irrelevant). -/
structure ExecutionDetails where
  cost_usd : Option Int := none
  duration_ms : Option Int := none
  duration_api_ms : Option Int := none
deriving Repr, DecidableEq

/-- Modelled from the spec (§3): the input record of `updateCommentBody`,
missing from the available sources (`src/github/operations/comment-logic.ts`). -/
structure CommentUpdateInput where
  currentBody : String
  actionFailed : Bool
  executionDetails : Option ExecutionDetails
  jobUrl : String
  branchName : Option String := none
  branchLink : Option String := none
  triggerUsername : Option String := none
deriving Repr, DecidableEq

/-- Modelled from the spec (§4.1 step 2): `< 60000` ms → `"{seconds}s"`
(integer division by 1000); `>= 60000` ms → `"{minutes}m {seconds}s"` with
minutes = floor(ms/60000) and seconds = floor((ms mod 60000)/1000). -/
def formatDurationChars (ms : Nat) : List Char :=
  if ms < 60000 then natChars (ms / 1000) ++ ['s']
  else natChars (ms / 60000) ++ 'm' :: ' ' :: (natChars (ms % 60000 / 1000) ++ ['s'])

/-- Modelled from the spec (§4.1 step 2): a duration clause is rendered iff
`executionDetails.duration_ms` is present and positive. -/
def durationOf : Option ExecutionDetails → Option (List Char)
  | none => none
  | some ed =>
    match ed.duration_ms with
    | none => none
    | some ms => if 0 < ms then some (formatDurationChars ms.toNat) else none

/-- Modelled from the spec (§4.1 step 1): use `triggerUsername` when provided,
otherwise recover the first `@`-prefixed token occurring after the
working-placeholder text. -/
def resolveUsername (i : CommentUpdateInput) : Option (List Char) :=
  match i.triggerUsername with
  | some u => some u.toList
  | none => findMention (afterWorkingMarker i.currentBody.toList)

/-- Modelled from the spec (§4.1 step 3): the header line. -/
def headerLine (i : CommentUpdateInput) : List Char :=
  if i.actionFailed then
    "**Claude encountered an error".toList ++
      (match durationOf i.executionDetails with
       | some d => " after ".toList ++ d
       | none => []) ++ "**".toList
  else
    "**Claude finished ".toList ++
      (match resolveUsername i with
       | some u => '@' :: (u ++ "'s task".toList)
       | none => "the task".toList) ++
      (match durationOf i.executionDetails with
       | some d => " in ".toList ++ d
       | none => []) ++ "**".toList

/-- Modelled from the spec (§4.1 step 4): the job-link line
`"—— [View job]({jobUrl})"`. -/
def jobLine (i : CommentUpdateInput) : List Char :=
  "—— [View job](".toList ++ i.jobUrl.toList ++ [')']

/-- Modelled from the spec (§4.1 step 5): owner segment of the job URL path
("first two segments after the host"); empty on malformed URLs (the spec
leaves malformed URLs unspecified and asks for a deterministic fallback). -/
def urlOwner (url : List Char) : List Char := (splitOnChar '/' url).getD 3 []

/-- Modelled from the spec (§4.1 step 5): repo segment of the job URL path. -/
def urlRepo (url : List Char) : List Char := (splitOnChar '/' url).getD 4 []

/-- Everything up to (excluding) the first `')'`. -/
def takeUntilParen : List Char → List Char
  | [] => []
  | c :: cs => if c = ')' then [] else c :: takeUntilParen cs

/-- Modelled from the spec (§4.1 step 5): "extract the branch name by parsing
the URL path segment after `/tree/` in the embedded markdown link". -/
def extractBranchName (link : List Char) : Option (List Char) :=
  (afterSub "/tree/".toList link).map takeUntilParen

/-- Modelled from the spec (§4.1 step 5): "prefer `branchName` if given;
otherwise, if `branchLink` is given, extract the branch name …; otherwise
omit". -/
def branchNameOf (i : CommentUpdateInput) : Option (List Char) :=
  match i.branchName with
  | some n => some n.toList
  | none =>
    match i.branchLink with
    | some link => extractBranchName link.toList
    | none => none

/-- Modelled from the spec (§4.1 step 5): the bullet branch line
``"• [`{branchName}`](https://github.com/{owner}/{repo}/tree/{branchName})"``. -/
def branchLineOf (i : CommentUpdateInput) : Option (List Char) :=
  (branchNameOf i).map fun n =>
    "• [`".toList ++ n ++ "`](https://github.com/".toList ++
      urlOwner i.jobUrl.toList ++ '/' :: urlRepo i.jobUrl.toList ++
      "/tree/".toList ++ n ++ [')']

/-- Drop everything up to and including the first `')'`. -/
def dropThroughParen : List Char → List Char
  | [] => []
  | c :: cs => if c = ')' then cs else dropThroughParen cs

/-- One scanning pass removing `"[View branch](…)"` chunks (fuel-driven;
`fuel = l.length` suffices since every step consumes at least one character). -/
def stripViewBranchAux : Nat → List Char → List Char
  | 0, l => l
  | _ + 1, [] => []
  | fuel + 1, c :: cs =>
    if viewBranchMarker.isPrefixOf (c :: cs) then
      stripViewBranchAux fuel (dropThroughParen ((c :: cs).drop viewBranchMarker.length))
    else c :: stripViewBranchAux fuel cs

/-- Modelled from the spec (§4.1 step 5): one pass stripping every
`"[View branch](…)"` link (its text up to the closing parenthesis). -/
def stripViewBranch (l : List Char) : List Char := stripViewBranchAux l.length l

/-- Iterated stripping (fuel-driven; the length strictly decreases whenever a
marker is present, so `fuel = l.length` suffices). -/
def stripVBFixAux : Nat → List Char → List Char
  | 0, l => l
  | fuel + 1, l =>
    if containsSub viewBranchMarker l then stripVBFixAux fuel (stripViewBranch l)
    else l

/-- Modelled from the spec (§4.1 step 5): "Any pre-existing legacy
`[View branch](…)` link found anywhere in the body must be stripped" —
stripping is iterated until no marker remains. -/
def stripVBFix (l : List Char) : List Char := stripVBFixAux l.length l

/-- Modelled from the spec (§4.1 steps 4–6): a line is stale when it carries
the working placeholder (together with any adjacent spinner markup on the same
line), a job-link in either format (legacy `"[View job run](…)"` or current
`"—— [View job](…)"` — job links are "removed entirely, including [the] line"),
or a previously emitted bullet branch line. -/
def isStaleLine (l : List Char) : Bool :=
  containsSub workingMarker l || containsSub jobMarker l || containsSub bulletMarker l

/-- Modelled from the spec (§4.1 step 6): body cleanup — strip legacy branch
links inside each line, then drop stale lines entirely; everything else is
preserved verbatim and in order. -/
def cleanBody (body : List Char) : List (List Char) :=
  ((splitLines body).map stripVBFix).filter (fun l => !isStaleLine l)

/-- Modelled from the spec (§4.1 steps 3–5): the header block — header line,
job-link line, and the bullet branch line when a branch was determined. -/
def headerBlockLines (i : CommentUpdateInput) : List (List Char) :=
  headerLine i :: jobLine i ::
    (match branchLineOf i with
     | some b => [b]
     | none => [])

/-- Modelled from the spec (§4.1 step 7): assembly
`{header}\n{job-link-line}\n{branch-link-line if any}\n\n---\n{remaining}`. -/
def updateChars (i : CommentUpdateInput) : List Char :=
  joinLines (headerBlockLines i ++ [[], "---".toList, joinLines (cleanBody i.currentBody.toList)])

/-- Modelled from the spec: `updateCommentBody`, the core transformation of
`src/github/operations/comment-logic.ts` (absent from the available sources;
only its tests and caller are present).  Pure and total. -/
def updateCommentBody (i : CommentUpdateInput) : String :=
  (updateChars i).asString

/-! ## The driver model (`src/entrypoints/update-comment-link.ts`) -/

/-- Abstraction of the external collaborators of the comment-fetch phase
(`update-comment-link.ts` lines 31–85): the event classification and the two
endpoint families' outcomes (`Except.error` models a thrown fetch error). -/
structure FetchEnv where
  isPullRequestReviewCommentEvent : Bool
  reviewCommentResult : Except String String
  issueCommentResult : Except String String
deriving Repr

/-- Embeds `update-comment-link.ts` lines 31–85: `comment` starts unset; for
pull-request review-comment events the pulls API is consulted (a thrown error
propagates to the catch block, which rethrows `finalError`); if `comment` is
still unset the issues API is consulted.  The `Bool` in the result is
`isPRReviewComment`. -/
def fetchComment (env : FetchEnv) : Except String (String × Bool) :=
  match
    (if env.isPullRequestReviewCommentEvent then
       match env.reviewCommentResult with
       | Except.ok c => Except.ok (some c)
       | Except.error e => Except.error e
     else Except.ok none : Except String (Option String)) with
  | Except.error e => Except.error e
  | Except.ok (some c) => Except.ok (c, true)
  | Except.ok none =>
    match env.issueCommentResult with
    | Except.ok c => Except.ok (c, false)
    | Except.error e => Except.error e

/-- Embeds the process outcome of the fetch phase: any error reaching the outer
catch (`update-comment-link.ts` lines 181–184) exits with status 1; otherwise
the run continues (and, absent later errors, exits 0 at line 180). -/
def fetchPhaseExitCode (env : FetchEnv) : Nat :=
  match fetchComment env with
  | Except.error _ => 1
  | Except.ok _ => 0

/-- Embeds `update-comment-link.ts` lines 130–137: on the normal path
`claudeSuccess = (CLAUDE_SUCCESS !== "false")` and `actionFailed = !claudeSuccess`;
on the catch path (output-file read threw) `actionFailed = (CLAUDE_SUCCESS === "false")`.
`readOk` distinguishes the two paths; `claudeSuccessEnv = none` models an unset
environment variable.  The resulting flag is the one passed to
`updateCommentBody` (line 142). -/
def actionFailedOf (readOk : Bool) (claudeSuccessEnv : Option String) : Bool :=
  if readOk then
    let claudeSuccess := claudeSuccessEnv != some "false"
    !claudeSuccess
  else claudeSuccessEnv == some "false"

/-- The header enumeration of claim C3, amended (refinement statement written
from the claim's words): on success the header is
`"**Claude finished @{user}'s task{ in {duration}}**"` when a username
resolved, and `"**Claude finished the task{ in {duration}}**"` when none did
(the duration clause appears iff a duration is known); on failure it is
`"**Claude encountered an error{ after {duration}}**"`. -/
def headerClaimForm (i : CommentUpdateInput) : List Char :=
  if i.actionFailed then
    match durationOf i.executionDetails with
    | some d => "**Claude encountered an error after ".toList ++ d ++ "**".toList
    | none => "**Claude encountered an error**".toList
  else
    match resolveUsername i, durationOf i.executionDetails with
    | some u, some d =>
      "**Claude finished @".toList ++ u ++ "'s task in ".toList ++ d ++ "**".toList
    | some u, none => "**Claude finished @".toList ++ u ++ "'s task**".toList
    | none, some d => "**Claude finished the task in ".toList ++ d ++ "**".toList
    | none, none => "**Claude finished the task**".toList

/-- Fetch environment exercising the claimed fallback: a pull-request
review-comment event whose review-comment fetch throws while the issue-comment
endpoint would succeed. -/
def exFetchEnvFail : FetchEnv :=
  { isPullRequestReviewCommentEvent := true
    reviewCommentResult := Except.error "boom"
    issueCommentResult := Except.ok "body" }

/-- Fetch environment for the amended-claim witness: a pull-request
review-comment event whose review-comment fetch succeeds. -/
def exFetchEnvOk : FetchEnv :=
  { isPullRequestReviewCommentEvent := true
    reviewCommentResult := Except.ok "c"
    issueCommentResult := Except.error "e" }

/-! ## Hygiene predicates

The universally-quantified claims are proved under mild well-formedness
hypotheses on the *input fields* (not on the comment body, which remains fully
arbitrary): the job URL and any supplied branch name contain no newline, no
`'['`, no space and no `'•'` (true of every GitHub URL and branch name), and
any supplied trigger username consists of word characters (GitHub's username
alphabet).  Each hypothesis is discharged on concrete inputs in the witness
theorems. -/

/-- Characters that never occur in URLs or branch names as used here. -/
def TameChars (l : List Char) : Prop :=
  '\n' ∉ l ∧ '[' ∉ l ∧ ' ' ∉ l ∧ '•' ∉ l

/-- Well-formedness of an input: tame job URL, word-character trigger
username (when supplied), tame resolved branch name (when one is determined). -/
def TameInput (i : CommentUpdateInput) : Prop :=
  TameChars i.jobUrl.toList ∧
    (∀ u, i.triggerUsername = some u → ∀ c ∈ u.toList, isWordChar c = true) ∧
    (∀ n, branchNameOf i = some n → TameChars n)

instance (l : List Char) : Decidable (TameChars l) := by
  unfold TameChars
  infer_instance

/-! ## Concrete inputs used in witnesses and counterexamples

These reproduce inputs of `test/comment-logic.test.ts` (jobUrl of the test's
`baseInput`, bodies of individual test cases). -/

/-- The job URL used throughout the unit tests. -/
def testJobUrl : String := "https://github.com/owner/repo/actions/runs/123"

/-- Input of the test "always includes job link in header, even if present in
body" (legacy job link present in the body). -/
def exInputJob : CommentUpdateInput :=
  { currentBody := "Some comment with [View job run](https://github.com/owner/repo/actions/runs/123)"
    actionFailed := false
    executionDetails := none
    jobUrl := testJobUrl
    triggerUsername := some "testuser" }

/-- Input with a positive duration (test "formats duration in minutes and
seconds in header" uses 75000 ms; here 74000 ms as in the first test). -/
def exInputDur : CommentUpdateInput :=
  { currentBody := "Claude Code is working…"
    actionFailed := false
    executionDetails := some { duration_ms := some 74000 }
    jobUrl := testJobUrl
    triggerUsername := some "trigger-user" }

/-- Input with no username and a known duration: the reference enumeration of
header forms does not cover this combination. -/
def exInputNoUserDur : CommentUpdateInput :=
  { currentBody := "x"
    actionFailed := false
    executionDetails := some { duration_ms := some 45000 }
    jobUrl := testJobUrl }

/-- Input of the test "handles username extraction from content when not
provided". -/
def exInputMention : CommentUpdateInput :=
  { currentBody := "Claude Code is working… <img src='spinner.gif' />\n\nI'll work on this task @testuser"
    actionFailed := false
    executionDetails := none
    jobUrl := testJobUrl }

/-- Input of the test "removes old branch links from body". -/
def exInputBranch : CommentUpdateInput :=
  { currentBody := "Some comment with [View branch](https://github.com/owner/repo/tree/branch-name)"
    actionFailed := false
    executionDetails := none
    jobUrl := testJobUrl
    branchName := some "new-branch-name" }

/-- Input of the test "combines all updates in correct order". -/
def exInputCombined : CommentUpdateInput :=
  { currentBody := "Claude Code is working…\n\n### Todo List:\n- [x] Read README.md\n- [x] Add disclaimer"
    actionFailed := false
    executionDetails := some { cost_usd := some 1, duration_ms := some 65000 }
    jobUrl := testJobUrl
    branchName := some "claude-branch-123"
    triggerUsername := some "trigger-user" }

/-- The combined-test output fed back in as the current body (idempotence). -/
def exInputFedBack : CommentUpdateInput :=
  { exInputCombined with currentBody := updateCommentBody exInputCombined }

/-- Input with every optional field absent. -/
def exInputBare : CommentUpdateInput :=
  { currentBody := "Initial comment body"
    actionFailed := false
    executionDetails := none
    jobUrl := testJobUrl }

/-! ## Substring machinery -/

theorem prefixOf_iff (p l : List Char) : p.isPrefixOf l = true ↔ ∃ t, l = p ++ t := by
  rw [ List.isPrefixOf_iff_prefix]
  constructor
  · rintro ⟨t, ht⟩; exact ⟨t, ht.symm⟩
  · rintro ⟨t, ht⟩; exact ⟨t, ht.symm⟩

theorem containsSub_iff (pat l : List Char) :
    containsSub pat l = true ↔ ∃ u v, l = u ++ pat ++ v := by
  induction l with
  | nil =>
    simp only [containsSub, List.isEmpty_iff]
    constructor
    · intro h; exact ⟨[], [], by simp [h]⟩
    · rintro ⟨u, v, huv⟩
      rcases List.append_eq_nil.mp (List.append_eq_nil.mp huv.symm).1 with ⟨-, h2⟩
      exact h2
  | cons c cs ih =>
    simp only [containsSub, Bool.or_eq_true]
    constructor
    · rintro (h | h)
      · obtain ⟨t, ht⟩ := (prefixOf_iff _ _).mp h
        exact ⟨[], t, by simp [ht]⟩
      · obtain ⟨u, v, huv⟩ := ih.mp h
        exact ⟨c :: u, v, by simp [huv]⟩
    · rintro ⟨u, v, huv⟩
      cases u with
      | nil =>
        left
        exact (prefixOf_iff _ _).mpr ⟨v, by simpa using huv⟩
      | cons x xs =>
        right
        refine ih.mpr ⟨xs, v, ?_⟩
        have := congrArg (List.tail ·) huv
        simpa using this

theorem containsSub_of_middle (pat u v : List Char) :
    containsSub pat (u ++ pat ++ v) = true :=
  (containsSub_iff _ _).mpr ⟨u, v, rfl⟩

theorem containsSub_trans {q pat l : List Char} (h : containsSub pat l = true)
    (hq : containsSub q pat = true) : containsSub q l = true := by
  obtain ⟨u, v, huv⟩ := (containsSub_iff _ _).mp h
  obtain ⟨x, y, hxy⟩ := (containsSub_iff _ _).mp hq
  refine (containsSub_iff _ _).mpr ⟨u ++ x, y ++ v, ?_⟩
  subst hxy
  simp [huv]

theorem mem_of_containsSub {c : Char} {p l : List Char}
    (h : containsSub (c :: p) l = true) : c ∈ l := by
  obtain ⟨u, v, huv⟩ := (containsSub_iff _ _).mp h
  subst huv
  simp

theorem not_containsSub_of_not_mem {c : Char} {p l : List Char} (h : c ∉ l) :
    containsSub (c :: p) l = false := by
  cases hb : containsSub (c :: p) l
  · rfl
  · exact absurd (mem_of_containsSub hb) h

/-! ## Adjacent-pair machinery -/

theorem hasPair_iff (c d : Char) (l : List Char) :
    hasPair c d l = true ↔ ∃ u v, l = u ++ c :: d :: v := by
  induction l with
  | nil =>
    simp only [hasPair]
    constructor
    · intro h; cases h
    · rintro ⟨u, v, huv⟩
      exact absurd huv.symm (by simp)
  | cons x xs ih =>
    simp only [hasPair, Bool.or_eq_true, Bool.and_eq_true, decide_eq_true_eq]
    constructor
    · rintro (⟨hx, hh⟩ | h)
      · cases xs with
        | nil => simp at hh
        | cons y ys =>
          simp only [List.head?_cons, Option.some_inj] at hh
          exact ⟨[], ys, by simp [hx, hh]⟩
      · obtain ⟨u, v, huv⟩ := ih.mp h
        exact ⟨x :: u, v, by simp [huv]⟩
    · rintro ⟨u, v, huv⟩
      cases u with
      | nil =>
        left
        have hx : x = c := by
          have := congrArg (List.head? ·) huv; simpa using this
        have hxs : xs = d :: v := by
          have := congrArg (List.tail ·) huv; simpa using this
        exact ⟨hx, by simp [hxs]⟩
      | cons y ys =>
        right
        refine ih.mpr ⟨ys, v, ?_⟩
        have := congrArg (List.tail ·) huv
        simpa using this

theorem hasPair_of_containsSub {c d : Char} {pat l : List Char}
    (hp : hasPair c d pat = true) (h : containsSub pat l = true) :
    hasPair c d l = true := by
  obtain ⟨u, v, huv⟩ := (containsSub_iff _ _).mp h
  obtain ⟨x, y, hxy⟩ := (hasPair_iff _ _ _).mp hp
  refine (hasPair_iff _ _ _).mpr ⟨u ++ x, y ++ v, ?_⟩
  subst hxy
  simp [huv]

theorem hasPair_mem_fst {c d : Char} {l : List Char} (h : hasPair c d l = true) : c ∈ l := by
  obtain ⟨u, v, huv⟩ := (hasPair_iff _ _ _).mp h
  subst huv; simp

theorem hasPair_cons (c d x : Char) (t : List Char) :
    hasPair c d (x :: t) = ((x = c && t.head? = some d) || hasPair c d t) := rfl

theorem hasPair_append_false {c d : Char} {a b : List Char}
    (ha : hasPair c d a = false) (hb : hasPair c d b = false)
    (hbd : ¬(a.getLast? = some c ∧ b.head? = some d)) :
    hasPair c d (a ++ b) = false := by
  induction a with
  | nil => simpa using hb
  | cons x xs ih =>
    rw [hasPair_cons] at ha
    rcases Bool.or_eq_false_iff.mp ha with ⟨ha1, ha2⟩
    rw [List.cons_append, hasPair_cons, Bool.or_eq_false_iff]
    cases xs with
    | nil =>
      refine ⟨?_, by simpa using hb⟩
      have hgl : (([x] : List Char)).getLast? = some x := rfl
      rw [Bool.and_eq_false_iff]
      by_cases hxc : x = c
      · right
        have : ¬(b.head? = some d) := fun hd => hbd ⟨by rw [hgl, hxc], hd⟩
        simpa using this
      · left; simpa using hxc
    | cons y ys =>
      have hgl : (x :: y :: ys).getLast? = (y :: ys).getLast? := by
        have : (x :: y :: ys).getLast? = (y :: ys).getLast? := List.getLast?_cons_cons
        exact this
      refine ⟨?_, ?_⟩
      · simpa using ha1
      · refine ih ha2 ?_
        intro ⟨h1, h2⟩
        exact hbd ⟨by rw [hgl]; exact h1, h2⟩

/-! ## Lines machinery -/

theorem splitLines_ne_nil (l : List Char) : splitLines l ≠ [] := by
  cases l with
  | nil => simp [splitLines]
  | cons c cs =>
    rw [splitLines]
    by_cases h : c = '\n'
    · simp [h]
    · simp only [if_neg h]
      cases splitLines cs <;> simp

theorem noNL_of_mem_splitLines {l : List Char} {p : List Char}
    (hp : p ∈ splitLines l) : '\n' ∉ p := by
  induction l generalizing p with
  | nil =>
    simp [splitLines] at hp
    simp [hp]
  | cons c cs ih =>
    rw [splitLines] at hp
    by_cases h : c = '\n'
    · rw [if_pos h] at hp
      rcases List.mem_cons.mp hp with h1 | h1
      · simp [h1]
      · exact ih h1
    · rw [if_neg h] at hp
      rcases hs : splitLines cs with - | ⟨q, t⟩
      · exact absurd hs (splitLines_ne_nil cs)
      · rw [hs] at hp
        rcases List.mem_cons.mp hp with h1 | h1
        · subst h1
          intro hmem
          rcases List.mem_cons.mp hmem with h2 | h2
          · exact h h2.symm
          · exact ih (hs ▸ List.mem_cons_self q t) h2
        · exact ih (hs ▸ List.mem_cons.mpr (Or.inr h1))

theorem splitLines_noNL {l : List Char} (h : '\n' ∉ l) : splitLines l = [l] := by
  induction l with
  | nil => rfl
  | cons c cs ih =>
    have hc : c ≠ '\n' := fun hc => h (hc ▸ List.mem_cons_self c cs)
    have hcs : '\n' ∉ cs := fun hm => h (List.mem_cons.mpr (Or.inr hm))
    rw [splitLines, if_neg hc, ih hcs]

theorem splitLines_append_nl {a : List Char} (b : List Char) (h : '\n' ∉ a) :
    splitLines (a ++ '\n' :: b) = a :: splitLines b := by
  induction a with
  | nil => simp [splitLines]
  | cons c cs ih =>
    have hc : c ≠ '\n' := fun hc => h (hc ▸ List.mem_cons_self c cs)
    have hcs : '\n' ∉ cs := fun hm => h (List.mem_cons.mpr (Or.inr hm))
    rw [List.cons_append, splitLines, if_neg hc, ih hcs]

theorem joinLines_cons_cons (l m : List Char) (ls : List (List Char)) :
    joinLines (l :: m :: ls) = l ++ '\n' :: joinLines (m :: ls) := rfl

theorem splitLines_joinLines_append {A : List (List Char)} (r : List Char)
    (hA : ∀ p ∈ A, '\n' ∉ p) (hne : A ≠ []) :
    splitLines (joinLines A ++ '\n' :: r) = A ++ splitLines r := by
  induction A with
  | nil => exact absurd rfl hne
  | cons a A' ih =>
    cases A' with
    | nil =>
      rw [joinLines]
      rw [splitLines_append_nl r (hA a (List.mem_cons_self a []))]
      rfl
    | cons m ls =>
      rw [joinLines_cons_cons, List.append_assoc, List.cons_append]
      rw [splitLines_append_nl _ (hA a (List.mem_cons_self a _))]
      rw [ih (fun p hp => hA p (List.mem_cons.mpr (Or.inr hp))) (by simp)]
      rfl

theorem splitLines_joinLines {A : List (List Char)}
    (hA : ∀ p ∈ A, '\n' ∉ p) (hne : A ≠ []) :
    splitLines (joinLines A) = A := by
  induction A with
  | nil => exact absurd rfl hne
  | cons a A' ih =>
    cases A' with
    | nil =>
      rw [joinLines, splitLines_noNL (hA a (List.mem_cons_self a []))]
    | cons m ls =>
      rw [joinLines_cons_cons]
      rw [splitLines_append_nl _ (hA a (List.mem_cons_self a _))]
      rw [ih (fun p hp => hA p (List.mem_cons.mpr (Or.inr hp))) (by simp)]

theorem joinLines_append (A B : List (List Char)) (hA : A ≠ []) (hB : B ≠ []) :
    joinLines (A ++ B) = joinLines A ++ '\n' :: joinLines B := by
  induction A with
  | nil => exact absurd rfl hA
  | cons a A' ih =>
    cases A' with
    | nil =>
      cases B with
      | nil => exact absurd rfl hB
      | cons b B' => rw [List.cons_append, List.nil_append, joinLines_cons_cons]; rfl
    | cons m ls =>
      have h1 : joinLines ((a :: m :: ls) ++ B) = a ++ '\n' :: joinLines ((m :: ls) ++ B) := rfl
      rw [h1, ih (by simp), joinLines_cons_cons]
      simp

/-! ## Character-provenance lemmas -/

theorem mem_of_mem_splitOnChar {sep c : Char} {l : List Char} {p : List Char}
    (hp : p ∈ splitOnChar sep l) (hc : c ∈ p) : c ∈ l := by
  induction l generalizing p with
  | nil =>
    simp [splitOnChar] at hp
    subst hp
    cases hc
  | cons x xs ih =>
    rw [splitOnChar] at hp
    by_cases h : x = sep
    · rw [if_pos h] at hp
      rcases List.mem_cons.mp hp with h1 | h1
      · subst h1; cases hc
      · exact List.mem_cons.mpr (Or.inr (ih h1 hc))
    · rw [if_neg h] at hp
      rcases hs : splitOnChar sep xs with - | ⟨q, t⟩
      · rw [hs] at hp
        simp at hp
        subst hp
        rcases List.mem_cons.mp hc with h1 | h1
        · exact List.mem_cons.mpr (Or.inl h1)
        · cases h1
      · rw [hs] at hp
        rcases List.mem_cons.mp hp with h1 | h1
        · subst h1
          rcases List.mem_cons.mp hc with h2 | h2
          · exact List.mem_cons.mpr (Or.inl h2)
          · exact List.mem_cons.mpr (Or.inr (ih (hs ▸ List.mem_cons_self q t) h2))
        · exact List.mem_cons.mpr (Or.inr (ih (hs ▸ List.mem_cons.mpr (Or.inr h1)) hc))

theorem mem_of_mem_urlOwner {c : Char} {url : List Char} (hc : c ∈ urlOwner url) : c ∈ url := by
  rw [urlOwner] at hc
  rcases hq : (splitOnChar '/' url).get? 3 with - | q
  · rw [List.getD, hq] at hc
    cases hc
  · rw [List.getD, hq] at hc
    exact mem_of_mem_splitOnChar (List.get?_mem hq) hc

theorem mem_of_mem_urlRepo {c : Char} {url : List Char} (hc : c ∈ urlRepo url) : c ∈ url := by
  rw [urlRepo] at hc
  rcases hq : (splitOnChar '/' url).get? 4 with - | q
  · rw [List.getD, hq] at hc
    cases hc
  · rw [List.getD, hq] at hc
    exact mem_of_mem_splitOnChar (List.get?_mem hq) hc

theorem natCharsAux_digits {fuel n : Nat} {c : Char} (hc : c ∈ natCharsAux fuel n) :
    c.isDigit = true := by
  induction fuel generalizing n with
  | zero => cases hc
  | succ fuel ih =>
    rw [natCharsAux] at hc
    by_cases h : n < 10
    · rw [if_pos h] at hc
      rcases List.mem_cons.mp hc with h1 | h1
      · subst h1
        interval_cases n <;> decide
      · cases h1
    · rw [if_neg h] at hc
      rcases List.mem_append.mp hc with h1 | h1
      · exact ih h1
      · rcases List.mem_cons.mp h1 with h2 | h2
        · subst h2
          have hlt : n % 10 < 10 := Nat.mod_lt n (by omega)
          set k := n % 10 with hk
          interval_cases k <;> decide
        · cases h2

theorem natChars_digits {n : Nat} {c : Char} (hc : c ∈ natChars n) : c.isDigit = true :=
  natCharsAux_digits hc

theorem natChars_ne_nil (n : Nat) : natChars n ≠ [] := by
  rw [natChars, natCharsAux]
  by_cases h : n < 10
  · simp [h]
  · simp [h]

theorem durationOf_chars {ed : Option ExecutionDetails} {d : List Char}
    (hd : durationOf ed = some d) {c : Char} (hc : c ∈ d) :
    c.isDigit = true ∨ c = 'm' ∨ c = 's' ∨ c = ' ' := by
  rcases ed with - | ed
  · cases hd
  · rcases hms : ed.duration_ms with - | ms
    · simp only [durationOf, hms] at hd
      cases hd
    · simp only [durationOf, hms] at hd
      by_cases hpos : 0 < ms
      · rw [if_pos hpos, Option.some_inj] at hd
        subst hd
        rw [formatDurationChars] at hc
        by_cases hlt : ms.toNat < 60000
        · rw [if_pos hlt] at hc
          rcases List.mem_append.mp hc with h1 | h1
          · exact Or.inl (natChars_digits h1)
          · rcases List.mem_cons.mp h1 with h2 | h2
            · exact Or.inr (Or.inr (Or.inl h2))
            · cases h2
        · rw [if_neg hlt] at hc
          rcases List.mem_append.mp hc with h1 | h1
          · exact Or.inl (natChars_digits h1)
          · rcases List.mem_cons.mp h1 with h2 | h1
            · exact Or.inr (Or.inl h2)
            · rcases List.mem_cons.mp h1 with h2 | h1
              · exact Or.inr (Or.inr (Or.inr h2))
              · rcases List.mem_append.mp h1 with h2 | h2
                · exact Or.inl (natChars_digits h2)
                · rcases List.mem_cons.mp h2 with h3 | h3
                  · exact Or.inr (Or.inr (Or.inl h3))
                  · cases h3
      · rw [if_neg hpos] at hd; cases hd

theorem takeWord_word {l : List Char} {c : Char} (hc : c ∈ takeWord l) :
    isWordChar c = true := by
  induction l with
  | nil => cases hc
  | cons x xs ih =>
    rw [takeWord] at hc
    by_cases h : isWordChar x
    · rw [if_pos h] at hc
      rcases List.mem_cons.mp hc with h1 | h1
      · exact h1 ▸ h
      · exact ih h1
    · rw [if_neg h] at hc
      cases hc

theorem findMention_word {l u : List Char} (hu : findMention l = some u) {c : Char}
    (hc : c ∈ u) : isWordChar c = true := by
  induction l with
  | nil => cases hu
  | cons x xs ih =>
    rw [findMention] at hu
    by_cases h : x = '@'
    · rw [if_pos h] at hu
      rcases hw : takeWord xs with - | ⟨q, t⟩
      · rw [hw] at hu
        exact ih hu
      · rw [hw] at hu
        rw [Option.some_inj] at hu
        subst hu
        exact takeWord_word (hw ▸ hc)
    · rw [if_neg h] at hu
      exact ih hu

/-! ## Stripping lemmas -/

theorem mem_of_mem_dropThroughParen {l : List Char} {c : Char}
    (hc : c ∈ dropThroughParen l) : c ∈ l := by
  induction l with
  | nil => cases hc
  | cons x xs ih =>
    rw [dropThroughParen] at hc
    by_cases h : x = ')'
    · rw [if_pos h] at hc
      exact List.mem_cons.mpr (Or.inr hc)
    · rw [if_neg h] at hc
      exact List.mem_cons.mpr (Or.inr (ih hc))

theorem dropThroughParen_length_le (l : List Char) :
    (dropThroughParen l).length ≤ l.length := by
  induction l with
  | nil => simp [dropThroughParen]
  | cons x xs ih =>
    rw [dropThroughParen]
    by_cases h : x = ')'
    · rw [if_pos h]; simp
    · rw [if_neg h]
      simp only [List.length_cons]
      omega

theorem mem_of_mem_stripViewBranchAux {fuel : Nat} {l : List Char} {c : Char}
    (hc : c ∈ stripViewBranchAux fuel l) : c ∈ l := by
  induction fuel generalizing l with
  | zero => exact hc
  | succ fuel ih =>
    cases l with
    | nil => exact hc
    | cons x xs =>
      rw [stripViewBranchAux] at hc
      by_cases h : viewBranchMarker.isPrefixOf (x :: xs) = true
      · rw [if_pos h] at hc
        exact List.mem_of_mem_drop (mem_of_mem_dropThroughParen (ih hc))
      · rw [if_neg h] at hc
        rcases List.mem_cons.mp hc with h1 | h1
        · exact List.mem_cons.mpr (Or.inl h1)
        · exact List.mem_cons.mpr (Or.inr (ih h1))

theorem stripViewBranchAux_length_le (fuel : Nat) (l : List Char) :
    (stripViewBranchAux fuel l).length ≤ l.length := by
  induction fuel generalizing l with
  | zero => exact Nat.le_refl _
  | succ fuel ih =>
    cases l with
    | nil => exact Nat.le_refl _
    | cons x xs =>
      rw [stripViewBranchAux]
      by_cases h : viewBranchMarker.isPrefixOf (x :: xs) = true
      · rw [if_pos h]
        calc (stripViewBranchAux fuel (dropThroughParen ((x :: xs).drop viewBranchMarker.length))).length
            ≤ (dropThroughParen ((x :: xs).drop viewBranchMarker.length)).length := ih _
          _ ≤ ((x :: xs).drop viewBranchMarker.length).length := dropThroughParen_length_le _
          _ ≤ (x :: xs).length := by rw [List.length_drop]; omega
      · rw [if_neg h]
        simp only [List.length_cons]
        exact Nat.succ_le_succ (ih xs)

theorem stripViewBranchAux_length_lt {fuel : Nat} {l : List Char}
    (hfuel : l.length ≤ fuel) (h : containsSub viewBranchMarker l = true) :
    (stripViewBranchAux fuel l).length < l.length := by
  induction fuel generalizing l with
  | zero =>
    have : l = [] := List.length_eq_zero.mp (Nat.le_zero.mp hfuel)
    subst this
    cases h
  | succ fuel ih =>
    cases l with
    | nil => cases h
    | cons x xs =>
      rw [stripViewBranchAux]
      by_cases hp : viewBranchMarker.isPrefixOf (x :: xs) = true
      · rw [if_pos hp]
        have h14 : viewBranchMarker.length ≤ (x :: xs).length := by
          obtain ⟨t, ht⟩ := (prefixOf_iff _ _).mp hp
          rw [ht, List.length_append]
          omega
        calc (stripViewBranchAux fuel (dropThroughParen ((x :: xs).drop viewBranchMarker.length))).length
            ≤ ((x :: xs).drop viewBranchMarker.length).length :=
              Nat.le_trans (stripViewBranchAux_length_le _ _) (dropThroughParen_length_le _)
          _ = (x :: xs).length - viewBranchMarker.length := List.length_drop _ _
          _ < (x :: xs).length := by
              have : 0 < viewBranchMarker.length := by decide
              omega
      · rw [if_neg hp]
        rw [containsSub, Bool.or_eq_true] at h
        rcases h with h | h
        · exact absurd h hp
        · have hxs : xs.length ≤ fuel := by
            simp only [List.length_cons] at hfuel
            omega
          have := ih hxs h
          simp only [List.length_cons]
          omega

theorem stripViewBranch_length_lt {l : List Char}
    (h : containsSub viewBranchMarker l = true) :
    (stripViewBranch l).length < l.length :=
  stripViewBranchAux_length_lt (Nat.le_refl _) h

theorem stripViewBranchAux_of_not_contains {fuel : Nat} {l : List Char}
    (h : containsSub viewBranchMarker l = false) : stripViewBranchAux fuel l = l := by
  induction fuel generalizing l with
  | zero => rfl
  | succ fuel ih =>
    cases l with
    | nil => rfl
    | cons x xs =>
      rw [containsSub, Bool.or_eq_false_iff] at h
      rw [stripViewBranchAux, if_neg (by simp [h.1]), ih h.2]

theorem stripVBFixAux_not_contains {fuel : Nat} {l : List Char} (hfuel : l.length ≤ fuel) :
    containsSub viewBranchMarker (stripVBFixAux fuel l) = false := by
  induction fuel generalizing l with
  | zero =>
    have : l = [] := List.length_eq_zero.mp (Nat.le_zero.mp hfuel)
    subst this
    rfl
  | succ fuel ih =>
    rw [stripVBFixAux]
    by_cases h : containsSub viewBranchMarker l = true
    · rw [if_pos h]
      have := stripViewBranch_length_lt h
      exact ih (by omega)
    · rw [if_neg h]
      exact Bool.not_eq_true _ ▸ (Bool.of_not_eq_true h)

theorem stripVBFix_not_contains (l : List Char) :
    containsSub viewBranchMarker (stripVBFix l) = false :=
  stripVBFixAux_not_contains (Nat.le_refl _)

theorem mem_of_mem_stripVBFixAux {fuel : Nat} {l : List Char} {c : Char}
    (hc : c ∈ stripVBFixAux fuel l) : c ∈ l := by
  induction fuel generalizing l with
  | zero => exact hc
  | succ fuel ih =>
    rw [stripVBFixAux] at hc
    by_cases h : containsSub viewBranchMarker l = true
    · rw [if_pos h] at hc
      exact mem_of_mem_stripViewBranchAux (ih hc)
    · rw [if_neg h] at hc
      exact hc

theorem mem_of_mem_stripVBFix {l : List Char} {c : Char} (hc : c ∈ stripVBFix l) : c ∈ l :=
  mem_of_mem_stripVBFixAux hc

theorem stripVBFix_of_not_contains {l : List Char}
    (h : containsSub viewBranchMarker l = false) : stripVBFix l = l := by
  rw [stripVBFix]
  cases hl : l.length with
  | zero => rfl
  | succ n =>
    rw [stripVBFixAux, if_neg (by simp [h])]

/-! ## Clean-body properties -/

theorem mem_cleanBody {body : List Char} {m : List Char} (hm : m ∈ cleanBody body) :
    isStaleLine m = false ∧ containsSub viewBranchMarker m = false ∧ '\n' ∉ m := by
  rw [cleanBody] at hm
  have h1 := List.of_mem_filter hm
  have h2 := List.mem_of_mem_filter hm
  obtain ⟨m0, hm0, hmap⟩ := List.mem_map.mp h2
  refine ⟨by simpa using h1, ?_, ?_⟩
  · rw [← hmap]
    exact stripVBFix_not_contains m0
  · intro hnl
    exact noNL_of_mem_splitLines hm0 (mem_of_mem_stripVBFix (hmap ▸ hnl))

theorem cleanBody_exists_pre {body : List Char} {m : List Char} (hm : m ∈ cleanBody body) :
    ∃ m0 ∈ splitLines body, m = stripVBFix m0 := by
  rw [cleanBody] at hm
  obtain ⟨m0, hm0, hmap⟩ := List.mem_map.mp (List.mem_of_mem_filter hm)
  exact ⟨m0, hm0, hmap.symm⟩

/-- Every line of the reassembled remainder section is free of stale markers
and of the legacy branch marker. -/
theorem restLines_clean {body : List Char} {m : List Char}
    (hm : m ∈ splitLines (joinLines (cleanBody body))) :
    isStaleLine m = false ∧ containsSub viewBranchMarker m = false := by
  rcases hcb : cleanBody body with - | ⟨q, t⟩
  · rw [hcb] at hm
    simp only [joinLines, splitLines] at hm
    rcases List.mem_cons.mp hm with h1 | h1
    · subst h1; constructor <;> rfl
    · cases h1
  · have hne : cleanBody body ≠ [] := by rw [hcb]; simp
    have hnl : ∀ p ∈ cleanBody body, '\n' ∉ p := fun p hp => (mem_cleanBody hp).2.2
    rw [splitLines_joinLines hnl hne] at hm
    exact ⟨(mem_cleanBody hm).1, (mem_cleanBody hm).2.1⟩

/-- Lines of the original body that carry none of the markers survive the
cleanup untouched, in order (as a sublist of the remainder lines). -/
theorem preserved_sublist (body : List Char) :
    List.Sublist
      ((splitLines body).filter
        (fun l => !isStaleLine l && !containsSub viewBranchMarker l))
      (splitLines (joinLines (cleanBody body))) := by
  rcases hcb : cleanBody body with - | ⟨q, t⟩
  · have : (splitLines body).filter
        (fun l => !isStaleLine l && !containsSub viewBranchMarker l) = [] := by
      rw [List.filter_eq_nil_iff]
      intro p hp
      intro hcontra
      rcases Bool.and_eq_true _ _ |>.mp hcontra with ⟨h1, h2⟩
      have hmem : stripVBFix p ∈ cleanBody body := by
        rw [cleanBody]
        refine List.mem_filter.mpr ⟨List.mem_map.mpr ⟨p, hp, rfl⟩, ?_⟩
        rw [stripVBFix_of_not_contains (by simpa using h2)]
        exact h1
      rw [hcb] at hmem
      cases hmem
    rw [this]
    exact List.nil_sublist _
  · have hne : cleanBody body ≠ [] := by rw [hcb]; simp
    have hnl : ∀ p ∈ cleanBody body, '\n' ∉ p := fun p hp => (mem_cleanBody hp).2.2
    rw [← hcb, splitLines_joinLines hnl hne, cleanBody]
    have key : ∀ L : List (List Char),
        List.Sublist
          (L.filter (fun l => !isStaleLine l && !containsSub viewBranchMarker l))
          ((L.map stripVBFix).filter (fun l => !isStaleLine l)) := by
      intro L
      induction L with
      | nil => exact List.nil_sublist _
      | cons x xs ih =>
        rw [List.map_cons, List.filter_cons, List.filter_cons]
        by_cases hx : (!isStaleLine x && !containsSub viewBranchMarker x) = true
        · rcases Bool.and_eq_true _ _ |>.mp hx with ⟨h1, h2⟩
          have hfix : stripVBFix x = x := stripVBFix_of_not_contains (by simpa using h2)
          rw [if_pos hx, hfix, if_pos h1]
          exact List.Sublist.cons₂ x ih
        · rw [if_neg hx]
          by_cases hkeep : (!isStaleLine (stripVBFix x)) = true
          · rw [if_pos hkeep]
            exact List.Sublist.cons _ ih
          · rw [if_neg hkeep]
            exact ih
    exact key (splitLines body)

/-! ## Hygiene of the constructed lines -/

theorem isDigit_ne {c : Char} (h : c.isDigit = true) :
    c ≠ '\n' ∧ c ≠ '[' ∧ c ≠ '•' ∧ c ≠ ' ' := by
  refine ⟨?_, ?_, ?_, ?_⟩ <;> intro heq <;> subst heq <;> exact absurd h (by decide)

theorem isWordChar_ne {c : Char} (h : isWordChar c = true) :
    c ≠ '\n' ∧ c ≠ '[' ∧ c ≠ '•' ∧ c ≠ ' ' := by
  refine ⟨?_, ?_, ?_, ?_⟩ <;> intro heq <;> subst heq <;> exact absurd h (by decide)

theorem durationOf_ne {ed : Option ExecutionDetails} {d : List Char}
    (hd : durationOf ed = some d) {c : Char} (hc : c ∈ d) :
    c ≠ '\n' ∧ c ≠ '[' ∧ c ≠ '•' := by
  rcases durationOf_chars hd hc with h | h | h | h
  · exact ⟨(isDigit_ne h).1, (isDigit_ne h).2.1, (isDigit_ne h).2.2.1⟩
  · subst h; refine ⟨by decide, by decide, by decide⟩
  · subst h; refine ⟨by decide, by decide, by decide⟩
  · subst h; refine ⟨by decide, by decide, by decide⟩

theorem resolveUsername_word {i : CommentUpdateInput} (hi : TameInput i) {u : List Char}
    (hu : resolveUsername i = some u) : ∀ c ∈ u, isWordChar c = true := by
  rw [resolveUsername] at hu
  rcases ht : i.triggerUsername with - | s
  · rw [ht] at hu
    intro c hc
    exact findMention_word hu hc
  · rw [ht, Option.some_inj] at hu
    subst hu
    exact hi.2.1 s ht

theorem headerLine_chars {i : CommentUpdateInput} (hi : TameInput i) {c : Char}
    (hc : c ∈ headerLine i) : c ≠ '\n' ∧ c ≠ '[' ∧ c ≠ '•' := by
  have hlit1 : ∀ x ∈ "**Claude encountered an error".toList,
      x ≠ '\n' ∧ x ≠ '[' ∧ x ≠ '•' := by decide
  have hlit2 : ∀ x ∈ " after ".toList, x ≠ '\n' ∧ x ≠ '[' ∧ x ≠ '•' := by decide
  have hlit3 : ∀ x ∈ "**".toList, x ≠ '\n' ∧ x ≠ '[' ∧ x ≠ '•' := by decide
  have hlit4 : ∀ x ∈ "**Claude finished ".toList, x ≠ '\n' ∧ x ≠ '[' ∧ x ≠ '•' := by decide
  have hlit5 : ∀ x ∈ "'s task".toList, x ≠ '\n' ∧ x ≠ '[' ∧ x ≠ '•' := by decide
  have hlit6 : ∀ x ∈ "the task".toList, x ≠ '\n' ∧ x ≠ '[' ∧ x ≠ '•' := by decide
  have hlit7 : ∀ x ∈ " in ".toList, x ≠ '\n' ∧ x ≠ '[' ∧ x ≠ '•' := by decide
  rw [headerLine] at hc
  by_cases hf : i.actionFailed
  · rw [if_pos hf] at hc
    rcases List.mem_append.mp hc with h1 | h1
    · rcases List.mem_append.mp h1 with h2 | h2
      · exact hlit1 c h2
      · rcases hdur : durationOf i.executionDetails with - | d
        · rw [hdur] at h2; cases h2
        · rw [hdur] at h2
          rcases List.mem_append.mp h2 with h3 | h3
          · exact hlit2 c h3
          · exact durationOf_ne hdur h3
    · exact hlit3 c h1
  · rw [if_neg hf] at hc
    rcases List.mem_append.mp hc with h1 | h1
    · rcases List.mem_append.mp h1 with h2 | h2
      · rcases List.mem_append.mp h2 with h3 | h3
        · exact hlit4 c h3
        · rcases hu : resolveUsername i with - | u
          · rw [hu] at h3
            exact hlit6 c h3
          · rw [hu] at h3
            rcases List.mem_cons.mp h3 with h4 | h4
            · subst h4; refine ⟨by decide, by decide, by decide⟩
            · rcases List.mem_append.mp h4 with h5 | h5
              · exact isWordChar_ne (resolveUsername_word hi hu c h5) |>.imp id
                  (fun h => ⟨h.1, h.2.1⟩)
              · exact hlit5 c h5
      · rcases hdur : durationOf i.executionDetails with - | d
        · rw [hdur] at h2; cases h2
        · rw [hdur] at h2
          rcases List.mem_append.mp h2 with h3 | h3
          · exact hlit7 c h3
          · exact durationOf_ne hdur h3
    · exact hlit3 c h1

theorem headerLine_noNL {i : CommentUpdateInput} (hi : TameInput i) :
    '\n' ∉ headerLine i :=
  fun h => (headerLine_chars hi h).1 rfl

theorem headerLine_noLB {i : CommentUpdateInput} (hi : TameInput i) :
    '[' ∉ headerLine i :=
  fun h => (headerLine_chars hi h).2.1 rfl

theorem headerLine_noBullet {i : CommentUpdateInput} (hi : TameInput i) :
    '•' ∉ headerLine i :=
  fun h => (headerLine_chars hi h).2.2 rfl

theorem jobLine_noNL {i : CommentUpdateInput} (hi : TameInput i) :
    '\n' ∉ jobLine i := by
  intro h
  rw [jobLine] at h
  rcases List.mem_append.mp h with h1 | h1
  · rcases List.mem_append.mp h1 with h2 | h2
    · exact absurd h2 (by decide)
    · exact hi.1.1 h2
  · exact absurd h1 (by decide)

theorem jobLine_noBullet {i : CommentUpdateInput} (hi : TameInput i) :
    '•' ∉ jobLine i := by
  intro h
  rw [jobLine] at h
  rcases List.mem_append.mp h with h1 | h1
  · rcases List.mem_append.mp h1 with h2 | h2
    · exact absurd h2 (by decide)
    · exact hi.1.2.2.2 h2
  · exact absurd h1 (by decide)

theorem branchLine_chars {i : CommentUpdateInput} (hi : TameInput i) {b : List Char}
    (hb : branchLineOf i = some b) {c : Char} (hc : c ∈ b) : c ≠ '\n' := by
  rw [branchLineOf] at hb
  rcases hn : branchNameOf i with - | n
  · rw [hn] at hb; cases hb
  · rw [hn, Option.map_some'] at hb
    have htame : TameChars n := hi.2.2 n hn
    rw [Option.some_inj] at hb
    subst hb
    intro heq
    subst heq
    have hn1 : '\n' ∉ n := htame.1
    have ho : '\n' ∉ urlOwner i.jobUrl.toList := fun h => hi.1.1 (mem_of_mem_urlOwner h)
    have hr : '\n' ∉ urlRepo i.jobUrl.toList := fun h => hi.1.1 (mem_of_mem_urlRepo h)
    have hl1 : '\n' ∉ "• [`".toList := by decide
    have hl2 : '\n' ∉ "`](https://github.com/".toList := by decide
    have hl3 : '\n' ∉ "/tree/".toList := by decide
    have hl4 : ('\n' : Char) ≠ '/' := by decide
    have hl5 : ('\n' : Char) ≠ ')' := by decide
    simp [hn1, hl1, hl2, hl3, hl4, hl5] at hc
    exact hc.elim (fun h => ho h) (fun h => hr h)

theorem branchLine_noNL {i : CommentUpdateInput} (hi : TameInput i) {b : List Char}
    (hb : branchLineOf i = some b) : '\n' ∉ b :=
  fun h => branchLine_chars hi hb h rfl

/-! ## Structure of the assembled output -/

theorem headerBlockLines_ne_nil (i : CommentUpdateInput) : headerBlockLines i ≠ [] := by
  rw [headerBlockLines]
  simp

theorem headerBlock_lines_noNL {i : CommentUpdateInput} (hi : TameInput i) :
    ∀ p ∈ headerBlockLines i ++ [[], "---".toList], '\n' ∉ p := by
  intro p hp
  rw [headerBlockLines] at hp
  rcases List.mem_append.mp hp with h1 | h1
  · rcases List.mem_cons.mp h1 with h2 | h2
    · subst h2; exact headerLine_noNL hi
    · rcases List.mem_cons.mp h2 with h3 | h3
      · subst h3; exact jobLine_noNL hi
      · rcases hb : branchLineOf i with - | b
        · rw [hb] at h3; cases h3
        · rw [hb] at h3
          rcases List.mem_cons.mp h3 with h4 | h4
          · subst h4; exact branchLine_noNL hi hb
          · cases h4
  · rcases List.mem_cons.mp h1 with h2 | h2
    · subst h2; simp
    · rcases List.mem_cons.mp h2 with h3 | h3
      · subst h3; decide
      · cases h3

theorem splitLines_updateChars {i : CommentUpdateInput} (hi : TameInput i) :
    splitLines (updateChars i) =
      headerBlockLines i ++ [[], "---".toList] ++
        splitLines (joinLines (cleanBody i.currentBody.toList)) := by
  rw [updateChars]
  have hassoc :
      headerBlockLines i ++ [[], "---".toList, joinLines (cleanBody i.currentBody.toList)] =
        (headerBlockLines i ++ [[], "---".toList]) ++
          [joinLines (cleanBody i.currentBody.toList)] := by
    simp
  rw [hassoc]
  have hAne : headerBlockLines i ++ [[], "---".toList] ≠ [] := by
    intro h
    exact headerBlockLines_ne_nil i (List.append_eq_nil.mp h).1
  rw [joinLines_append _ _ hAne (by simp)]
  have hjr : joinLines [joinLines (cleanBody i.currentBody.toList)] =
      joinLines (cleanBody i.currentBody.toList) := rfl
  rw [hjr]
  exact splitLines_joinLines_append _ (headerBlock_lines_noNL hi) hAne

theorem updateChars_eq_parts (i : CommentUpdateInput) :
    updateChars i =
      joinLines (headerBlockLines i) ++
        ('\n' :: '\n' :: '-' :: '-' :: '-' :: '\n' ::
          joinLines (cleanBody i.currentBody.toList)) := by
  rw [updateChars]
  have h2 : joinLines (headerBlockLines i ++
      ([[], "---".toList, joinLines (cleanBody i.currentBody.toList)])) =
      joinLines (headerBlockLines i) ++ '\n' ::
        joinLines [[], "---".toList, joinLines (cleanBody i.currentBody.toList)] :=
    joinLines_append _ _ (headerBlockLines_ne_nil i) (by simp)
  rw [h2]
  have h3 : joinLines [[], "---".toList, joinLines (cleanBody i.currentBody.toList)] =
      '\n' :: ("---".toList ++ '\n' :: joinLines (cleanBody i.currentBody.toList)) := rfl
  rw [h3]
  have h4 : "---".toList = ['-', '-', '-'] := rfl
  rw [h4]
  rfl

/-- The assembled output always matches the blank-line-then-separator pattern. -/
theorem updateChars_contains_sep (i : CommentUpdateInput) :
    containsSub "\n\n---\n".toList (updateChars i) = true := by
  refine (containsSub_iff _ _).mpr
    ⟨joinLines (headerBlockLines i), joinLines (cleanBody i.currentBody.toList), ?_⟩
  rw [updateChars_eq_parts]
  have hp : "\n\n---\n".toList = ['\n', '\n', '-', '-', '-', '\n'] := rfl
  rw [hp]
  simp

theorem toList_updateCommentBody (i : CommentUpdateInput) :
    (updateCommentBody i).toList = updateChars i := rfl

/-! ## Non-containment of markers in constructed lines -/

theorem mem_of_head?_eq_some {l : List Char} {c : Char} (h : l.head? = some c) : c ∈ l := by
  cases l with
  | nil => cases h
  | cons x xs =>
    rw [List.head?_cons, Option.some_inj] at h
    exact List.mem_cons.mpr (Or.inl h.symm)

theorem not_containsSub_of_head_not_mem {pat l : List Char} {c : Char}
    (hc : pat.head? = some c) (h : c ∉ l) : containsSub pat l = false := by
  cases pat with
  | nil => cases hc
  | cons x xs =>
    rw [List.head?_cons, Option.some_inj] at hc
    subst hc
    exact not_containsSub_of_not_mem h

theorem not_hasPair_of_not_mem_fst {c d : Char} {l : List Char} (h : c ∉ l) :
    hasPair c d l = false := by
  cases hp : hasPair c d l
  · rfl
  · exact absurd (hasPair_mem_fst hp) h

theorem hpf {c d : Char} {a b : List Char} (ha : hasPair c d a = false)
    (hb : hasPair c d b = false)
    (hbnd : a.getLast? = some c → b.head? = some d → False) :
    hasPair c d (a ++ b) = false :=
  hasPair_append_false ha hb (fun h => hbnd h.1 h.2)

theorem hpf_var {c d : Char} {a b : List Char} (hmem : c ∉ a)
    (hb : hasPair c d b = false) : hasPair c d (a ++ b) = false :=
  hpf (not_hasPair_of_not_mem_fst hmem) hb
    (fun h1 _ => hmem (List.mem_of_getLast?_eq_some h1))

theorem headerLine_head (i : CommentUpdateInput) : (headerLine i).head? = some '*' := by
  rw [headerLine]
  by_cases hf : i.actionFailed
  · rw [if_pos hf]; rfl
  · rw [if_neg hf]; rfl

theorem jobLine_head (i : CommentUpdateInput) : (jobLine i).head? = some '—' := rfl

theorem branchLine_head {i : CommentUpdateInput} {b : List Char}
    (hb : branchLineOf i = some b) : b.head? = some '•' := by
  rw [branchLineOf] at hb
  rcases hn : branchNameOf i with - | n
  · rw [hn] at hb; cases hb
  · rw [hn, Option.map_some', Option.some_inj] at hb
    subst hb
    rfl

theorem jobLine_contains_jobMarker (i : CommentUpdateInput) :
    containsSub jobMarker (jobLine i) = true := by
  refine (containsSub_iff _ _).mpr
    ⟨"—— ".toList, "](".toList ++ i.jobUrl.toList ++ [')'], ?_⟩
  rw [jobLine]
  have h1 : "—— [View job](".toList =
      "—— ".toList ++ jobMarker ++ "](".toList := rfl
  rw [h1]
  simp

theorem jobLine_stale (i : CommentUpdateInput) : isStaleLine (jobLine i) = true := by
  rw [isStaleLine, jobLine_contains_jobMarker]
  simp

theorem branchLine_contains_bullet {i : CommentUpdateInput} {b : List Char}
    (hb : branchLineOf i = some b) : containsSub bulletMarker b = true := by
  rw [branchLineOf] at hb
  rcases hn : branchNameOf i with - | n
  · rw [hn] at hb; cases hb
  · rw [hn, Option.map_some', Option.some_inj] at hb
    subst hb
    refine (containsSub_iff _ _).mpr ⟨[], ?_, ?_⟩
    · exact n ++ "`](https://github.com/".toList ++ urlOwner i.jobUrl.toList ++
        '/' :: urlRepo i.jobUrl.toList ++ "/tree/".toList ++ n ++ [')']
    · simp [bulletMarker]

/-- No `"[V"` adjacency occurs in the branch bullet line (so neither job-link
marker nor legacy branch marker occurs in it). -/
theorem branchLine_no_pair_LBV {i : CommentUpdateInput} (hi : TameInput i) {b : List Char}
    (hb : branchLineOf i = some b) : hasPair '[' 'V' b = false := by
  rw [branchLineOf] at hb
  rcases hn : branchNameOf i with - | n
  · rw [hn] at hb; cases hb
  · rw [hn, Option.map_some', Option.some_inj] at hb
    subst hb
    have htame : TameChars n := hi.2.2 n hn
    have hn1 : '[' ∉ n := htame.2.1
    have ho : '[' ∉ urlOwner i.jobUrl.toList := fun h => hi.1.2.1 (mem_of_mem_urlOwner h)
    have hr : '[' ∉ urlRepo i.jobUrl.toList := fun h => hi.1.2.1 (mem_of_mem_urlRepo h)
    simp only [List.append_assoc, List.cons_append]
    refine hpf (by decide) ?_ (fun h1 _ => absurd h1 (by decide))
    refine hpf_var hn1 ?_
    refine hpf (by decide) ?_ (fun h1 _ => absurd h1 (by decide))
    refine hpf_var ho ?_
    rw [hasPair_cons]
    refine Bool.or_eq_false_iff.mpr ⟨by simp, ?_⟩
    refine hpf_var hr ?_
    refine hpf (by decide) ?_ (fun h1 _ => absurd h1 (by decide))
    refine hpf_var hn1 (by decide)

/-- No `" r"` adjacency occurs in the job-link line (so the legacy
`"[View job run]("` marker does not occur in it). -/
theorem jobLine_no_pair_SR {i : CommentUpdateInput} (hi : TameInput i) :
    hasPair ' ' 'r' (jobLine i) = false := by
  rw [jobLine]
  have hu : ' ' ∉ i.jobUrl.toList := hi.1.2.2.1
  simp only [List.append_assoc]
  refine hpf (by decide) ?_ (fun h1 _ => absurd h1 (by decide))
  refine hpf_var hu (by decide)

/-- No `" b"` adjacency occurs in the job-link line (so the legacy
`"[View branch]("` marker does not occur in it). -/
theorem jobLine_no_pair_SB {i : CommentUpdateInput} (hi : TameInput i) :
    hasPair ' ' 'b' (jobLine i) = false := by
  rw [jobLine]
  have hu : ' ' ∉ i.jobUrl.toList := hi.1.2.2.1
  simp only [List.append_assoc]
  refine hpf (by decide) ?_ (fun h1 _ => absurd h1 (by decide))
  refine hpf_var hu (by decide)

/-- When no duration clause is rendered, no `" i"` adjacency occurs in the
header (hence no `" in "` clause). -/
theorem headerLine_no_pair_SI {i : CommentUpdateInput} (hi : TameInput i)
    (hdur : durationOf i.executionDetails = none) :
    hasPair ' ' 'i' (headerLine i) = false := by
  rw [headerLine]
  simp only [hdur]
  by_cases hf : i.actionFailed
  · rw [if_pos hf]
    decide
  · rw [if_neg hf]
    rcases hu : resolveUsername i with - | u
    · simp only [hu]
      decide
    · simp only [hu]
      have hw := resolveUsername_word hi hu
      have hsp : ' ' ∉ u := fun h => by
        have := hw ' ' h
        exact absurd this (by decide)
      simp only [List.append_nil, List.append_assoc, List.cons_append]
      refine hpf (by decide) ?_ (fun _ h2 => by simp at h2)
      rw [hasPair_cons]
      refine Bool.or_eq_false_iff.mpr ⟨by simp, ?_⟩
      refine hpf_var hsp (by decide)

/-! ## Counting lemmas -/

theorem ne_of_head_ne {l1 l2 : List Char} {c1 c2 : Char} (h1 : l1.head? = some c1)
    (h2 : l2.head? = some c2) (hne : c1 ≠ c2) : l1 ≠ l2 := by
  intro he
  rw [he, h2, Option.some_inj] at h1
  exact hne h1.symm

theorem of_not_stale {m : List Char} (h : isStaleLine m = false) :
    containsSub workingMarker m = false ∧ containsSub jobMarker m = false ∧
      containsSub bulletMarker m = false := by
  rw [isStaleLine] at h
  rcases Bool.or_eq_false_iff.mp h with ⟨h1, h2⟩
  rcases Bool.or_eq_false_iff.mp h1 with ⟨h3, h4⟩
  exact ⟨h3, h4, h2⟩

theorem countP_jobLine {i : CommentUpdateInput} (hi : TameInput i) :
    (splitLines (updateChars i)).countP (fun l => l == jobLine i) = 1 := by
  rw [splitLines_updateChars hi, List.countP_append, List.countP_append]
  have hh : (headerLine i == jobLine i) = false := by
    rw [beq_eq_false_iff_ne]
    exact ne_of_head_ne (headerLine_head i) (jobLine_head i) (by decide)
  have hj : (jobLine i == jobLine i) = true := by simp
  have h1 : (headerBlockLines i).countP (fun l => l == jobLine i) = 1 := by
    rw [headerBlockLines]
    rcases hb : branchLineOf i with - | b
    · simp [List.countP_cons, hh, hj]
    · have hbne : (b == jobLine i) = false := by
        rw [beq_eq_false_iff_ne]
        exact ne_of_head_ne (branchLine_head hb) (jobLine_head i) (by decide)
      simp [List.countP_cons, hh, hj, hbne]
  have h2 : (([[], "---".toList] : List (List Char))).countP (fun l => l == jobLine i) = 0 := by
    have e1 : (([] : List Char) == jobLine i) = false := by
      rw [beq_eq_false_iff_ne]
      intro he
      have := jobLine_head i
      rw [← he] at this
      cases this
    have e2 : ("---".toList == jobLine i) = false := by
      rw [beq_eq_false_iff_ne]
      exact ne_of_head_ne (by rfl) (jobLine_head i) (by decide)
    rw [List.countP_cons, List.countP_cons, List.countP_nil]
    simp only [e1, e2]
    rfl
  have h3 : (splitLines (joinLines (cleanBody i.currentBody.toList))).countP
      (fun l => l == jobLine i) = 0 := by
    rw [List.countP_eq_zero]
    intro m hm hbeq
    have hm' : m = jobLine i := by simpa using hbeq
    have hstale := (restLines_clean hm).1
    rw [hm', jobLine_stale i] at hstale
    cases hstale
  omega

theorem countP_bullet {i : CommentUpdateInput} (hi : TameInput i) :
    (splitLines (updateChars i)).countP (fun l => containsSub bulletMarker l) =
      (match branchLineOf i with
       | some _ => 1
       | none => 0) := by
  rw [splitLines_updateChars hi, List.countP_append, List.countP_append]
  have hh : containsSub bulletMarker (headerLine i) = false :=
    not_containsSub_of_head_not_mem (by rfl) (headerLine_noBullet hi)
  have hjl : containsSub bulletMarker (jobLine i) = false :=
    not_containsSub_of_head_not_mem (by rfl) (jobLine_noBullet hi)
  have h1 : (headerBlockLines i).countP (fun l => containsSub bulletMarker l) =
      (match branchLineOf i with
       | some _ => 1
       | none => 0) := by
    rw [headerBlockLines]
    rcases hb : branchLineOf i with - | b
    · simp [List.countP_cons, hh, hjl]
    · simp [List.countP_cons, hh, hjl, branchLine_contains_bullet hb]
  have h2 : (([[], "---".toList] : List (List Char))).countP
      (fun l => containsSub bulletMarker l) = 0 := by
    simp [List.countP_cons]
    decide
  have h3 : (splitLines (joinLines (cleanBody i.currentBody.toList))).countP
      (fun l => containsSub bulletMarker l) = 0 := by
    rw [List.countP_eq_zero]
    intro m hm hc
    have := (of_not_stale (restLines_clean hm).1).2.2
    rw [hc] at this
    cases this
  rw [h1, h2, h3]
  omega

theorem lines_no_jobRun {i : CommentUpdateInput} (hi : TameInput i) :
    ∀ m ∈ splitLines (updateChars i), containsSub jobRunMarker m = false := by
  rw [splitLines_updateChars hi]
  intro m hm
  rcases List.mem_append.mp hm with hA | h3
  · rcases List.mem_append.mp hA with h1 | h2
    · rw [headerBlockLines] at h1
      rcases List.mem_cons.mp h1 with hh | hh
      · subst hh
        exact not_containsSub_of_head_not_mem (by rfl) (headerLine_noLB hi)
      · rcases List.mem_cons.mp hh with hj | hj
        · subst hj
          cases hc : containsSub jobRunMarker (jobLine i)
          · rfl
          · have hp : hasPair ' ' 'r' jobRunMarker = true := by decide
            have := hasPair_of_containsSub hp hc
            rw [jobLine_no_pair_SR hi] at this
            cases this
        · rcases hb : branchLineOf i with - | b
          · rw [hb] at hj; cases hj
          · rw [hb] at hj
            rcases List.mem_cons.mp hj with hb2 | hb2
            · subst hb2
              cases hc : containsSub jobRunMarker m
              · rfl
              · have hp : hasPair '[' 'V' jobRunMarker = true := by decide
                have := hasPair_of_containsSub hp hc
                rw [branchLine_no_pair_LBV hi hb] at this
                cases this
            · cases hb2
    · rcases List.mem_cons.mp h2 with hh | hh
      · subst hh; rfl
      · rcases List.mem_cons.mp hh with hh2 | hh2
        · subst hh2; decide
        · cases hh2
  · cases hc : containsSub jobRunMarker m
    · rfl
    · have hq : containsSub jobMarker jobRunMarker = true := by decide
      have hjm : containsSub jobMarker m = true := containsSub_trans hc hq
      have := (of_not_stale (restLines_clean h3).1).2.1
      rw [hjm] at this
      cases this

theorem lines_no_viewBranch {i : CommentUpdateInput} (hi : TameInput i) :
    ∀ m ∈ splitLines (updateChars i), containsSub viewBranchMarker m = false := by
  rw [splitLines_updateChars hi]
  intro m hm
  rcases List.mem_append.mp hm with hA | h3
  · rcases List.mem_append.mp hA with h1 | h2
    · rw [headerBlockLines] at h1
      rcases List.mem_cons.mp h1 with hh | hh
      · subst hh
        exact not_containsSub_of_head_not_mem (by rfl) (headerLine_noLB hi)
      · rcases List.mem_cons.mp hh with hj | hj
        · subst hj
          cases hc : containsSub viewBranchMarker (jobLine i)
          · rfl
          · have hp : hasPair ' ' 'b' viewBranchMarker = true := by decide
            have := hasPair_of_containsSub hp hc
            rw [jobLine_no_pair_SB hi] at this
            cases this
        · rcases hb : branchLineOf i with - | b
          · rw [hb] at hj; cases hj
          · rw [hb] at hj
            rcases List.mem_cons.mp hj with hb2 | hb2
            · subst hb2
              cases hc : containsSub viewBranchMarker m
              · rfl
              · have hp : hasPair '[' 'V' viewBranchMarker = true := by decide
                have := hasPair_of_containsSub hp hc
                rw [branchLine_no_pair_LBV hi hb] at this
                cases this
            · cases hb2
    · rcases List.mem_cons.mp h2 with hh | hh
      · subst hh; rfl
      · rcases List.mem_cons.mp hh with hh2 | hh2
        · subst hh2; decide
        · cases hh2
  · exact (restLines_clean h3).2

theorem get?_one_updateChars {i : CommentUpdateInput} (hi : TameInput i) :
    (splitLines (updateChars i)).get? 1 = some (jobLine i) := by
  rw [splitLines_updateChars hi, headerBlockLines]
  rfl

/-! ## Claims -/

/-- C1: For every (well-formed) input, the output contains the line
`"—— [View job]({jobUrl})"` exactly once, directly following the header
(line index 1), and no line of the output carries a legacy
`"[View job run]("` link — any such pre-existing link is removed together
with its line. -/
theorem claim_C1 (i : CommentUpdateInput) (hi : TameInput i) :
    (splitLines (updateCommentBody i).toList).get? 1 = some (jobLine i) ∧
      (splitLines (updateCommentBody i).toList).countP (fun l => l == jobLine i) = 1 ∧
      ∀ m ∈ splitLines (updateCommentBody i).toList,
        containsSub jobRunMarker m = false := by
  rw [toList_updateCommentBody]
  exact ⟨get?_one_updateChars hi, countP_jobLine hi, lines_no_jobRun hi⟩

theorem claim_C1_witness :
    (splitLines (updateCommentBody exInputJob).toList).get? 1 = some (jobLine exInputJob) ∧
      (splitLines (updateCommentBody exInputJob).toList).countP
        (fun l => l == jobLine exInputJob) = 1 ∧
      ∀ m ∈ splitLines (updateCommentBody exInputJob).toList,
        containsSub jobRunMarker m = false :=
  claim_C1 exInputJob
    ⟨by decide, fun u hu => by
      have : u = "testuser" := by
        have h := hu
        simp only [exInputJob] at h
        exact (Option.some_inj.mp h).symm
      subst this
      decide,
     fun n hn => by
      have h : branchNameOf exInputJob = none := by decide
      rw [h] at hn
      cases hn⟩

/-! ## Further helpers for the claims -/

theorem TameInput.mk' {i : CommentUpdateInput} (h1 : TameChars i.jobUrl.toList)
    (h2 : ∀ c ∈ (i.triggerUsername.getD "").toList, isWordChar c = true)
    (h3 : TameChars ((branchNameOf i).getD [])) : TameInput i := by
  refine ⟨h1, ?_, ?_⟩
  · intro u hu
    rw [hu] at h2
    simpa using h2
  · intro n hn
    rw [hn] at h3
    simpa using h3

theorem header_no_in {i : CommentUpdateInput} (hi : TameInput i)
    (hdur : durationOf i.executionDetails = none) :
    containsSub " in ".toList (headerLine i) = false := by
  cases hc : containsSub " in ".toList (headerLine i)
  · rfl
  · have hp : hasPair ' ' 'i' " in ".toList = true := by decide
    have := hasPair_of_containsSub hp hc
    rw [headerLine_no_pair_SI hi hdur] at this
    cases this

theorem headerLine_noAt {i : CommentUpdateInput} (hu : resolveUsername i = none) :
    '@' ∉ headerLine i := by
  intro hc
  rw [headerLine] at hc
  have hdchar : ∀ {d : List Char}, durationOf i.executionDetails = some d →
      '@' ∉ d := by
    intro d hd hmem
    rcases durationOf_chars hd hmem with h | h | h | h
    · exact absurd h (by decide)
    · cases h
    · cases h
    · cases h
  by_cases hf : i.actionFailed
  · rw [if_pos hf] at hc
    rcases List.mem_append.mp hc with h1 | h1
    · rcases List.mem_append.mp h1 with h2 | h2
      · exact absurd h2 (by decide)
      · rcases hdur : durationOf i.executionDetails with - | d
        · rw [hdur] at h2; cases h2
        · rw [hdur] at h2
          rcases List.mem_append.mp h2 with h3 | h3
          · exact absurd h3 (by decide)
          · exact hdchar hdur h3
    · exact absurd h1 (by decide)
  · rw [if_neg hf, hu] at hc
    rcases List.mem_append.mp hc with h1 | h1
    · rcases List.mem_append.mp h1 with h2 | h2
      · rcases List.mem_append.mp h2 with h3 | h3
        · exact absurd h3 (by decide)
        · exact absurd h3 (by decide)
      · rcases hdur : durationOf i.executionDetails with - | d
        · rw [hdur] at h2; cases h2
        · rw [hdur] at h2
          rcases List.mem_append.mp h2 with h3 | h3
          · exact absurd h3 (by decide)
          · exact hdchar hdur h3
    · exact absurd h1 (by decide)

theorem headerLine_eq_claimForm {i : CommentUpdateInput} : headerLine i = headerClaimForm i := by
  rw [headerLine, headerClaimForm]
  by_cases hf : i.actionFailed
  · rw [if_pos hf, if_pos hf]
    rcases hdur : durationOf i.executionDetails with - | d
    · rfl
    · have h1 : "**Claude encountered an error after ".toList =
          "**Claude encountered an error".toList ++ " after ".toList := rfl
      rw [h1]
      simp
  · rw [if_neg hf, if_neg hf]
    rcases hu : resolveUsername i with - | u <;>
      rcases hdur : durationOf i.executionDetails with - | d
    · rfl
    · have h1 : "**Claude finished the task in ".toList =
          "**Claude finished ".toList ++ "the task".toList ++ " in ".toList := rfl
      rw [h1]
      simp
    · have h1 : "**Claude finished @".toList =
          "**Claude finished ".toList ++ ['@'] := rfl
      have h2 : "'s task**".toList = "'s task".toList ++ "**".toList := rfl
      rw [h1]
      simp
    · have h1 : "**Claude finished @".toList =
          "**Claude finished ".toList ++ ['@'] := rfl
      have h2 : "'s task in ".toList = "'s task".toList ++ " in ".toList := rfl
      rw [h1, h2]
      simp

theorem head?_updateChars {i : CommentUpdateInput} (hi : TameInput i) :
    (splitLines (updateChars i)).head? = some (headerLine i) := by
  rw [splitLines_updateChars hi, headerBlockLines]
  rfl

theorem header_contains_dur_success {i : CommentUpdateInput} (hf : i.actionFailed = false)
    {d : List Char} (hdur : durationOf i.executionDetails = some d) :
    containsSub (" in ".toList ++ d) (headerLine i) = true := by
  refine (containsSub_iff _ _).mpr
    ⟨"**Claude finished ".toList ++
      (match resolveUsername i with
       | some u => '@' :: (u ++ "'s task".toList)
       | none => "the task".toList), "**".toList, ?_⟩
  rw [headerLine, hf, hdur]
  simp

theorem header_contains_dur_error {i : CommentUpdateInput} (hf : i.actionFailed = true)
    {d : List Char} (hdur : durationOf i.executionDetails = some d) :
    containsSub (" after ".toList ++ d) (headerLine i) = true := by
  refine (containsSub_iff _ _).mpr
    ⟨"**Claude encountered an error".toList, "**".toList, ?_⟩
  rw [headerLine, hf, hdur]
  simp

/-- C2: duration rendering.  When `duration_ms` is present and positive the
rendered duration is `formatDurationChars`, which realises the claimed
arithmetic (`{floor(ms/1000)}s` below one minute, else
`{floor(ms/60000)}m {floor((ms mod 60000)/1000)}s`), with the claimed
concrete values; it is rendered in the header after `" in "` (success) or
`" after "` (failure).  When `duration_ms` is absent or non-positive no
duration is rendered and the header carries no `" in "` clause. -/
theorem claim_C2 (i : CommentUpdateInput) (hi : TameInput i) :
    (∀ ed ms, i.executionDetails = some ed → ed.duration_ms = some ms → 0 < ms →
      durationOf i.executionDetails = some (formatDurationChars ms.toNat) ∧
      (i.actionFailed = false →
        containsSub (" in ".toList ++ formatDurationChars ms.toNat) (headerLine i) = true) ∧
      (i.actionFailed = true →
        containsSub (" after ".toList ++ formatDurationChars ms.toNat) (headerLine i) = true)) ∧
    (∀ ms : Nat, 0 < ms →
      (ms < 60000 → formatDurationChars ms = natChars (ms / 1000) ++ ['s']) ∧
      (60000 ≤ ms → formatDurationChars ms =
        natChars (ms / 60000) ++ 'm' :: ' ' :: (natChars (ms % 60000 / 1000) ++ ['s']))) ∧
    formatDurationChars 45000 = "45s".toList ∧
    formatDurationChars 74000 = "1m 14s".toList ∧
    formatDurationChars 31033 = "31s".toList ∧
    formatDurationChars 65000 = "1m 5s".toList ∧
    (durationOf i.executionDetails = none →
      containsSub " in ".toList (headerLine i) = false) ∧
    (i.executionDetails = none → durationOf i.executionDetails = none) ∧
    (∀ ed, i.executionDetails = some ed → ed.duration_ms = none →
      durationOf i.executionDetails = none) ∧
    (∀ ed ms, i.executionDetails = some ed → ed.duration_ms = some ms → ms ≤ 0 →
      durationOf i.executionDetails = none) := by
  refine ⟨?_, ?_, by decide, by decide, by decide, by decide,
    fun h => header_no_in hi h, ?_, ?_, ?_⟩
  · intro ed ms hed hms hpos
    have hdur : durationOf i.executionDetails = some (formatDurationChars ms.toNat) := by
      simp [durationOf, hed, hms, hpos]
    exact ⟨hdur, fun hf => header_contains_dur_success hf hdur,
      fun hf => header_contains_dur_error hf hdur⟩
  · intro ms _
    constructor
    · intro hlt
      rw [formatDurationChars, if_pos hlt]
    · intro hge
      rw [formatDurationChars, if_neg (by omega)]
  · intro h
    rw [h]
    rfl
  · intro ed hed hms
    simp [durationOf, hed, hms]
  · intro ed ms hed hms hle
    simp [durationOf, hed, hms]
    omega

theorem claim_C2_witness :
    (∀ ed ms, exInputDur.executionDetails = some ed → ed.duration_ms = some ms → 0 < ms →
      durationOf exInputDur.executionDetails = some (formatDurationChars ms.toNat) ∧
      (exInputDur.actionFailed = false →
        containsSub (" in ".toList ++ formatDurationChars ms.toNat)
          (headerLine exInputDur) = true) ∧
      (exInputDur.actionFailed = true →
        containsSub (" after ".toList ++ formatDurationChars ms.toNat)
          (headerLine exInputDur) = true)) ∧
    (∀ ms : Nat, 0 < ms →
      (ms < 60000 → formatDurationChars ms = natChars (ms / 1000) ++ ['s']) ∧
      (60000 ≤ ms → formatDurationChars ms =
        natChars (ms / 60000) ++ 'm' :: ' ' :: (natChars (ms % 60000 / 1000) ++ ['s']))) ∧
    formatDurationChars 45000 = "45s".toList ∧
    formatDurationChars 74000 = "1m 14s".toList ∧
    formatDurationChars 31033 = "31s".toList ∧
    formatDurationChars 65000 = "1m 5s".toList ∧
    (durationOf exInputDur.executionDetails = none →
      containsSub " in ".toList (headerLine exInputDur) = false) ∧
    (exInputDur.executionDetails = none → durationOf exInputDur.executionDetails = none) ∧
    (∀ ed, exInputDur.executionDetails = some ed → ed.duration_ms = none →
      durationOf exInputDur.executionDetails = none) ∧
    (∀ ed ms, exInputDur.executionDetails = some ed → ed.duration_ms = some ms → ms ≤ 0 →
      durationOf exInputDur.executionDetails = none) :=
  claim_C2 exInputDur (TameInput.mk' (by decide) (by decide) (by decide))

/-- C3 (as stated) is false: with no resolvable username, `actionFailed`
false and a known duration, the header is
`"**Claude finished the task in 45s**"`, which is none of the four
enumerated forms (the enumeration only allows `"**Claude finished the
task**"` when no username resolved). -/
theorem claim_C3_counterexample :
    exInputNoUserDur.actionFailed = false ∧
      resolveUsername exInputNoUserDur = none ∧
      (splitLines (updateCommentBody exInputNoUserDur).toList).head? =
        some "**Claude finished the task in 45s**".toList ∧
      "**Claude finished the task in 45s**".toList ≠
        "**Claude finished the task**".toList := by
  refine ⟨rfl, by decide, by decide, by decide⟩

/-- C3 amended: the output's first line is exactly the four-way (success ×
username × duration, failure × duration) enumeration `headerClaimForm`, in
which the duration clause also attaches to the no-username success header. -/
theorem claim_C3_amended (i : CommentUpdateInput) (hi : TameInput i) :
    (splitLines (updateCommentBody i).toList).head? = some (headerClaimForm i) := by
  rw [toList_updateCommentBody, head?_updateChars hi, headerLine_eq_claimForm]

theorem claim_C3_amended_witness :
    (splitLines (updateCommentBody exInputNoUserDur).toList).head? =
      some (headerClaimForm exInputNoUserDur) :=
  claim_C3_amended exInputNoUserDur (TameInput.mk' (by decide) (by decide) (by decide))

/-- C4: when `triggerUsername` is absent, the username used in the header is
the first `@`-prefixed word-character token occurring after the
working-placeholder text (`findMention (afterWorkingMarker …)`); the resolved
token consists of word characters (hyphen/underscore allowed), and the header
renders it possessively; when no such token exists the possessive clause is
omitted. -/
theorem claim_C4 (i : CommentUpdateInput) (hi : TameInput i)
    (htrig : i.triggerUsername = none) (hf : i.actionFailed = false) :
    resolveUsername i = findMention (afterWorkingMarker i.currentBody.toList) ∧
      (∀ u, findMention (afterWorkingMarker i.currentBody.toList) = some u →
        (∀ c ∈ u, isWordChar c = true) ∧
        (splitLines (updateCommentBody i).toList).head? =
          some ("**Claude finished ".toList ++ '@' :: (u ++ "'s task".toList) ++
            (match durationOf i.executionDetails with
             | some d => " in ".toList ++ d
             | none => ([] : List Char)) ++ "**".toList)) ∧
      (findMention (afterWorkingMarker i.currentBody.toList) = none →
        (splitLines (updateCommentBody i).toList).head? =
          some ("**Claude finished ".toList ++ "the task".toList ++
            (match durationOf i.executionDetails with
             | some d => " in ".toList ++ d
             | none => ([] : List Char)) ++ "**".toList)) := by
  have hres : resolveUsername i = findMention (afterWorkingMarker i.currentBody.toList) := by
    rw [resolveUsername, htrig]
  refine ⟨hres, ?_, ?_⟩
  · intro u hu
    refine ⟨fun c hc => findMention_word hu hc, ?_⟩
    rw [toList_updateCommentBody, head?_updateChars hi, headerLine, hf]
    rw [hres, hu]
    simp
  · intro hu
    rw [toList_updateCommentBody, head?_updateChars hi, headerLine, hf]
    rw [hres, hu]
    simp

theorem claim_C4_witness :
    resolveUsername exInputMention =
        findMention (afterWorkingMarker exInputMention.currentBody.toList) ∧
      (∀ u, findMention (afterWorkingMarker exInputMention.currentBody.toList) = some u →
        (∀ c ∈ u, isWordChar c = true) ∧
        (splitLines (updateCommentBody exInputMention).toList).head? =
          some ("**Claude finished ".toList ++ '@' :: (u ++ "'s task".toList) ++
            (match durationOf exInputMention.executionDetails with
             | some d => " in ".toList ++ d
             | none => ([] : List Char)) ++ "**".toList)) ∧
      (findMention (afterWorkingMarker exInputMention.currentBody.toList) = none →
        (splitLines (updateCommentBody exInputMention).toList).head? =
          some ("**Claude finished ".toList ++ "the task".toList ++
            (match durationOf exInputMention.executionDetails with
             | some d => " in ".toList ++ d
             | none => ([] : List Char)) ++ "**".toList)) :=
  claim_C4 exInputMention (TameInput.mk' (by decide) (by decide) (by decide)) rfl rfl

/-- C5: the advertised branch is `branchName` when given (even when
`branchLink` is also given); otherwise the name parsed after `/tree/` in the
markdown link of `branchLink`; otherwise the bullet line is omitted; and no
line of the output carries a legacy `"[View branch]("` link. -/
theorem claim_C5 (i : CommentUpdateInput) (hi : TameInput i) :
    (∀ n, i.branchName = some n →
      (splitLines (updateCommentBody i).toList).get? 2 =
        some ("• [`".toList ++ n.toList ++ "`](https://github.com/".toList ++
          urlOwner i.jobUrl.toList ++ '/' :: urlRepo i.jobUrl.toList ++
          "/tree/".toList ++ n.toList ++ [')'])) ∧
      (∀ link n, i.branchName = none → i.branchLink = some link →
        extractBranchName link.toList = some n →
        (splitLines (updateCommentBody i).toList).get? 2 =
          some ("• [`".toList ++ n ++ "`](https://github.com/".toList ++
            urlOwner i.jobUrl.toList ++ '/' :: urlRepo i.jobUrl.toList ++
            "/tree/".toList ++ n ++ [')'])) ∧
      (branchNameOf i = none →
        (splitLines (updateCommentBody i).toList).countP
          (fun l => containsSub bulletMarker l) = 0) ∧
      (∀ m ∈ splitLines (updateCommentBody i).toList,
        containsSub viewBranchMarker m = false) := by
  refine ⟨?_, ?_, ?_, ?_⟩
  · intro n hn
    have hbn : branchNameOf i = some n.toList := by
      rw [branchNameOf, hn]
    have hbl : branchLineOf i =
        some ("• [`".toList ++ n.toList ++ "`](https://github.com/".toList ++
          urlOwner i.jobUrl.toList ++ '/' :: urlRepo i.jobUrl.toList ++
          "/tree/".toList ++ n.toList ++ [')']) := by
      rw [branchLineOf, hbn]
      rfl
    rw [toList_updateCommentBody, splitLines_updateChars hi, headerBlockLines, hbl]
    rfl
  · intro link n hn hlink hext
    have hbn : branchNameOf i = some n := by
      simp only [branchNameOf, hn, hlink]
      exact hext
    have hbl : branchLineOf i =
        some ("• [`".toList ++ n ++ "`](https://github.com/".toList ++
          urlOwner i.jobUrl.toList ++ '/' :: urlRepo i.jobUrl.toList ++
          "/tree/".toList ++ n ++ [')']) := by
      rw [branchLineOf, hbn]
      rfl
    rw [toList_updateCommentBody, splitLines_updateChars hi, headerBlockLines, hbl]
    rfl
  · intro hbn
    have hbl : branchLineOf i = none := by
      rw [branchLineOf, hbn]
      rfl
    rw [toList_updateCommentBody, countP_bullet hi, hbl]
  · rw [toList_updateCommentBody]
    exact lines_no_viewBranch hi

theorem claim_C5_witness :
    (∀ n, exInputBranch.branchName = some n →
      (splitLines (updateCommentBody exInputBranch).toList).get? 2 =
        some ("• [`".toList ++ n.toList ++ "`](https://github.com/".toList ++
          urlOwner exInputBranch.jobUrl.toList ++
          '/' :: urlRepo exInputBranch.jobUrl.toList ++
          "/tree/".toList ++ n.toList ++ [')'])) ∧
      (∀ link n, exInputBranch.branchName = none → exInputBranch.branchLink = some link →
        extractBranchName link.toList = some n →
        (splitLines (updateCommentBody exInputBranch).toList).get? 2 =
          some ("• [`".toList ++ n ++ "`](https://github.com/".toList ++
            urlOwner exInputBranch.jobUrl.toList ++
            '/' :: urlRepo exInputBranch.jobUrl.toList ++
            "/tree/".toList ++ n ++ [')'])) ∧
      (branchNameOf exInputBranch = none →
        (splitLines (updateCommentBody exInputBranch).toList).countP
          (fun l => containsSub bulletMarker l) = 0) ∧
      (∀ m ∈ splitLines (updateCommentBody exInputBranch).toList,
        containsSub viewBranchMarker m = false) :=
  claim_C5 exInputBranch (TameInput.mk' (by decide) (by decide) (by decide))

/-- C6: the output is assembled as header line, job-link line, optional
branch line, one blank line, a `"---"` separator line, then the cleaned
remainder of the original body; the output contains the pattern
`"\n\n---\n"`; and the lines of `currentBody` free of all stripped markers
are preserved verbatim and in order after the separator. -/
theorem claim_C6 (i : CommentUpdateInput) (hi : TameInput i) :
    containsSub "\n\n---\n".toList (updateCommentBody i).toList = true ∧
      splitLines (updateCommentBody i).toList =
        headerLine i :: jobLine i :: ((branchLineOf i).toList ++
          ([] :: "---".toList ::
            splitLines (joinLines (cleanBody i.currentBody.toList)))) ∧
      List.Sublist
        ((splitLines i.currentBody.toList).filter
          (fun l => !isStaleLine l && !containsSub viewBranchMarker l))
        (splitLines (joinLines (cleanBody i.currentBody.toList))) := by
  refine ⟨?_, ?_, preserved_sublist _⟩
  · rw [toList_updateCommentBody]
    exact updateChars_contains_sep i
  · rw [toList_updateCommentBody, splitLines_updateChars hi, headerBlockLines]
    rcases branchLineOf i with - | b <;> simp [Option.toList]

theorem claim_C6_witness :
    containsSub "\n\n---\n".toList (updateCommentBody exInputCombined).toList = true ∧
      splitLines (updateCommentBody exInputCombined).toList =
        headerLine exInputCombined :: jobLine exInputCombined ::
          ((branchLineOf exInputCombined).toList ++
            ([] :: "---".toList ::
              splitLines (joinLines (cleanBody exInputCombined.currentBody.toList)))) ∧
      List.Sublist
        ((splitLines exInputCombined.currentBody.toList).filter
          (fun l => !isStaleLine l && !containsSub viewBranchMarker l))
        (splitLines (joinLines (cleanBody exInputCombined.currentBody.toList))) :=
  claim_C6 exInputCombined (TameInput.mk' (by decide) (by decide) (by decide))

/-- C7: feeding the formatter's own output back in as `currentBody` (with the
same facts) does not duplicate the injected lines: the job-link line occurs
exactly once and at most one line carries the branch bullet marker. -/
theorem claim_C7 (i1 i2 : CommentUpdateInput) (hi : TameInput i2)
    (_hfeed : i2.currentBody = updateCommentBody i1) :
    (splitLines (updateCommentBody i2).toList).countP (fun l => l == jobLine i2) = 1 ∧
      (splitLines (updateCommentBody i2).toList).countP
        (fun l => containsSub bulletMarker l) ≤ 1 := by
  rw [toList_updateCommentBody]
  refine ⟨countP_jobLine hi, ?_⟩
  rw [countP_bullet hi]
  rcases branchLineOf i2 with - | b <;> simp

theorem claim_C7_witness :
    (splitLines (updateCommentBody exInputFedBack).toList).countP
        (fun l => l == jobLine exInputFedBack) = 1 ∧
      (splitLines (updateCommentBody exInputFedBack).toList).countP
        (fun l => containsSub bulletMarker l) ≤ 1 :=
  claim_C7 exInputCombined exInputFedBack
    (TameInput.mk' (by decide) (by decide) (by decide)) rfl

/-- C8: total graceful degradation — `updateCommentBody` is a total Lean
function, and every absent or malformed optional field leads to the
corresponding clause being omitted: no duration clause (no `" in "`), no
bullet branch line, no possessive `'@'` clause. -/
theorem claim_C8 (i : CommentUpdateInput) (hi : TameInput i) :
    (i.executionDetails = none → durationOf i.executionDetails = none) ∧
      (durationOf i.executionDetails = none →
        containsSub " in ".toList (headerLine i) = false) ∧
      (i.branchName = none → i.branchLink = none →
        (splitLines (updateCommentBody i).toList).countP
          (fun l => containsSub bulletMarker l) = 0) ∧
      (∀ link, i.branchName = none → i.branchLink = some link →
        extractBranchName link.toList = none →
        (splitLines (updateCommentBody i).toList).countP
          (fun l => containsSub bulletMarker l) = 0) ∧
      (i.triggerUsername = none →
        findMention (afterWorkingMarker i.currentBody.toList) = none →
        '@' ∉ headerLine i) := by
  refine ⟨?_, fun h => header_no_in hi h, ?_, ?_, ?_⟩
  · intro h
    rw [h]
    rfl
  · intro hn hl
    have hbn : branchNameOf i = none := by
      rw [branchNameOf, hn, hl]
    have hbl : branchLineOf i = none := by
      rw [branchLineOf, hbn]
      rfl
    rw [toList_updateCommentBody, countP_bullet hi, hbl]
  · intro link hn hl hext
    have hbn : branchNameOf i = none := by
      simp only [branchNameOf, hn, hl]
      exact hext
    have hbl : branchLineOf i = none := by
      rw [branchLineOf, hbn]
      rfl
    rw [toList_updateCommentBody, countP_bullet hi, hbl]
  · intro htrig hfm
    have hres : resolveUsername i = none := by
      rw [resolveUsername, htrig, hfm]
    exact headerLine_noAt hres

theorem claim_C8_witness :
    (exInputBare.executionDetails = none → durationOf exInputBare.executionDetails = none) ∧
      (durationOf exInputBare.executionDetails = none →
        containsSub " in ".toList (headerLine exInputBare) = false) ∧
      (exInputBare.branchName = none → exInputBare.branchLink = none →
        (splitLines (updateCommentBody exInputBare).toList).countP
          (fun l => containsSub bulletMarker l) = 0) ∧
      (∀ link, exInputBare.branchName = none → exInputBare.branchLink = some link →
        extractBranchName link.toList = none →
        (splitLines (updateCommentBody exInputBare).toList).countP
          (fun l => containsSub bulletMarker l) = 0) ∧
      (exInputBare.triggerUsername = none →
        findMention (afterWorkingMarker exInputBare.currentBody.toList) = none →
        '@' ∉ headerLine exInputBare) :=
  claim_C8 exInputBare (TameInput.mk' (by decide) (by decide) (by decide))

/-- C9 (as stated) is false on the driver: for a pull-request review-comment
event whose review-comment fetch throws, the issues endpoint is never tried —
even though it would succeed — and the process fails. -/
theorem claim_C9_counterexample :
    exFetchEnvFail.issueCommentResult = Except.ok "body" ∧
      fetchComment exFetchEnvFail = Except.error "boom" ∧
      fetchPhaseExitCode exFetchEnvFail = 1 :=
  ⟨rfl, rfl, rfl⟩

/-- C9 amended: the driver selects the endpoint family by event
classification — the pulls API for pull-request review-comment events, the
issues API otherwise; a fetch failure is not retried against the other
family: it surfaces the error and the process exits with a non-zero status,
while a successful fetch leaves the fetch phase with exit code 0. -/
theorem claim_C9_amended (env : FetchEnv) :
    (env.isPullRequestReviewCommentEvent = true →
      fetchComment env = env.reviewCommentResult.map (fun c => (c, true))) ∧
      (env.isPullRequestReviewCommentEvent = false →
        fetchComment env = env.issueCommentResult.map (fun c => (c, false))) ∧
      (∀ e, fetchComment env = Except.error e → fetchPhaseExitCode env = 1) ∧
      (∀ c, fetchComment env = Except.ok c → fetchPhaseExitCode env = 0) := by
  rcases env with ⟨pr, rv, is⟩
  cases pr <;> cases rv <;> cases is <;>
    simp [fetchComment, fetchPhaseExitCode, Except.map]

theorem claim_C9_amended_witness :
    fetchComment exFetchEnvOk =
      exFetchEnvOk.reviewCommentResult.map (fun c => (c, true)) :=
  (claim_C9_amended exFetchEnvOk).1 rfl

/-- C10: the `actionFailed` flag is true iff the `CLAUDE_SUCCESS` environment
variable is exactly the string `"false"` — any other value, including the
variable being unset (`none`), yields `false` — on both the normal path and
the catch path of the output-file read. -/
theorem claim_C10 (readOk : Bool) (claudeSuccessEnv : Option String) :
    actionFailedOf readOk claudeSuccessEnv = true ↔ claudeSuccessEnv = some "false" := by
  cases readOk <;> simp [actionFailedOf, bne]
